import Mathlib

/-!
Verification of the SymSpell-style spelling correction engine (Go source)
against its natural-language specification.

Strings are modelled as lists of Unicode scalar values (`List Nat`, one
entry per rune).  The Go code slices strings by byte position and the
distance engine converts to runes; on the ASCII data used in every concrete
evaluation below the two views coincide, so a single rune-list model is
faithful.  Go `int`/`int64` values that can be negative (edit distances,
frequency counts, loop bounds) are modelled as `Int`; values that are
provably non-negative indices or lengths are modelled as `Nat`.
-/

namespace SymSpellGo

/-- A string as a list of Unicode scalar values (runes). -/
abbrev Str := List Nat

/-! ### Distance engine: `distance_comparer.go`

The scratch buffers (`baseChar1Costs`, `basePrevChar1Costs`) of the Go
`DamerauOSA` struct are a reuse optimisation: every array cell that
influences the result is written before it is read within a single call
(reads of never-written cells feed only the transposition accumulator for
loop positions that are skipped).  The embedding therefore allocates fresh
zero arrays per call, which reproduces the observable behaviour. -/

/-- Embeds `nullDistanceResults`: the empty-string cases of `Distance`. -/
def nullDistanceResults (s1 s2 : Str) (maxDistance : Int) : Int :=
  if s1 = s2 then 0
  else
    let distance : Int := if s2.length > s1.length then s2.length else s1.length
    if distance > maxDistance then -1 else distance

/-- Length of the common prefix of two rune lists (the `start` loop of
`prefixSuffixPrep`). -/
def commonPfxLen : List Nat → List Nat → Nat
  | a :: as, b :: bs => if a = b then commonPfxLen as bs + 1 else 0
  | _, _ => 0

/-- Embeds `prefixSuffixPrep`: returns `(len1, len2, start)` after removing
the common prefix and the common suffix of the remainders. -/
def prefixSuffixPrep (r1 r2 : List Nat) : Nat × Nat × Nat :=
  let start := commonPfxLen r1 r2
  let a := r1.drop start
  let b := r2.drop start
  let k := commonPfxLen a.reverse b.reverse
  (a.length - k, b.length - k, start)

/-- State of the inner (column) loop of `dist` / `distanceWithMax`:
the two cost arrays and the rolling scalar variables of the Go code. -/
structure InnerSt where
  c1 : List Int        -- char1Costs
  p1 : List Int        -- prevChar1Costs
  cur : Int            -- currentCost
  left : Int           -- leftCharCost
  above : Int          -- aboveCharCost
  nextTrans : Int      -- nextTransCost
  ch2 : Nat            -- char2
deriving DecidableEq

/-- One iteration of the shared inner loop body of `dist` and
`distanceWithMax` at column `j`, for row character `ch1` with previous row
character `pch1` (row index `i`). -/
def innerStep (r2 : List Nat) (start i : Nat) (ch1 pch1 : Nat) (st : InnerSt) (j : Nat) :
    InnerSt :=
  let thisTransCost := st.nextTrans
  let nextTransCost := st.p1.getD j 0
  let p1 := st.p1.set j st.cur
  let currentCost := st.left
  let leftCharCost := st.c1.getD j 0
  let prevChar2 := st.ch2
  let char2 := r2.getD (start + j) 0
  let currentCost :=
    if ch1 ≠ char2 then
      let c := if st.above < currentCost then st.above else currentCost
      let c := if leftCharCost < c then leftCharCost else c
      let c := c + 1
      if i ≠ 0 ∧ j ≠ 0 ∧ ch1 = prevChar2 ∧ pch1 = char2 ∧ thisTransCost + 1 < c then
        thisTransCost + 1
      else c
    else currentCost
  { c1 := st.c1.set j currentCost, p1 := p1, cur := currentCost, left := leftCharCost,
    above := currentCost, nextTrans := nextTransCost, ch2 := char2 }

/-- State carried between rows of the dynamic programs. -/
structure RowSt where
  c1 : List Int
  p1 : List Int
  cur : Int
  ch1 : Nat
deriving DecidableEq

/-- One row of `dist` (row index `i`). -/
def distRow (r1 r2 : List Nat) (start len2 : Nat) (st : RowSt) (i : Nat) : RowSt :=
  let pch1 := st.ch1
  let ch1 := r1.getD (start + i) 0
  let init : InnerSt :=
    { c1 := st.c1, p1 := st.p1, cur := st.cur, left := (i : Int), above := (i : Int),
      nextTrans := 0, ch2 := 0 }
  let fin := (List.range len2).foldl (innerStep r2 start i ch1 pch1) init
  { c1 := fin.c1, p1 := fin.p1, cur := fin.cur, ch1 := ch1 }

/-- Embeds `dist`: the unbanded Damerau-OSA dynamic program. -/
def dist (r1 r2 : List Nat) (len1 len2 start : Nat) : Int :=
  let c0 : List Int := (List.range len2).map (fun j => (j : Int) + 1)
  let p0 : List Int := List.replicate len2 0
  let fin := (List.range len1).foldl (distRow r1 r2 start len2)
    { c1 := c0, p1 := p0, cur := 0, ch1 := 0 }
  fin.cur

/-- Rows of `distanceWithMax`, with the per-row early abort.  The first
argument is the number of remaining rows; `i` is the current row index. -/
def dwmRows (r1 r2 : List Nat) (start len2 m lenDiff jStartOffset : Nat) :
    Nat → Nat → Nat → Nat → RowSt → Int
  | 0, _, _, _, st => if st.cur ≤ (m : Int) then st.cur else -1
  | n + 1, i, jStart, jEnd, st =>
    let pch1 := st.ch1
    let ch1 := r1.getD (start + i) 0
    let jStart' := if i > jStartOffset then jStart + 1 else jStart
    let jEnd' := if jEnd < len2 then jEnd + 1 else jEnd
    let init : InnerSt :=
      { c1 := st.c1, p1 := st.p1, cur := st.cur, left := (i : Int), above := (i : Int),
        nextTrans := 0, ch2 := 0 }
    let fin := (List.range' jStart' (jEnd' - jStart')).foldl (innerStep r2 start i ch1 pch1) init
    if fin.c1.getD (i + lenDiff) 0 > (m : Int) then -1
    else dwmRows r1 r2 start len2 m lenDiff jStartOffset n (i + 1) jStart' jEnd'
      { c1 := fin.c1, p1 := fin.p1, cur := fin.cur, ch1 := ch1 }

/-- Embeds `distanceWithMax`: the banded Damerau-OSA dynamic program with
maximum distance `m ≥ 1` (the caller guarantees `0 < maxDistance < len2`
and `len2 - len1 ≤ m`). -/
def distanceWithMax (r1 r2 : List Nat) (len1 len2 start m : Nat) : Int :=
  let c0 : List Int :=
    (List.range len2).map (fun j => if j < m then (j : Int) + 1 else (m : Int) + 1)
  let p0 : List Int := List.replicate len2 0
  let lenDiff := len2 - len1
  let jStartOffset := m - lenDiff
  dwmRows r1 r2 start len2 m lenDiff jStartOffset len1 0 0 m
    { c1 := c0, p1 := p0, cur := 0, ch1 := 0 }

/-- Embeds `DamerauOSA.Distance` (and hence `comparer.Compare`, which merely
forwards to it). -/
def goDistance (string1 string2 : Str) (maxDistance : Int) : Int :=
  if string1 = [] ∨ string2 = [] then nullDistanceResults string1 string2 maxDistance
  else if maxDistance ≤ 0 then (if string1 = string2 then 0 else -1)
  else
    let p := if string1.length > string2.length then (string2, string1) else (string1, string2)
    let r1 := p.1
    let r2 := p.2
    if (r2.length : Int) - (r1.length : Int) > maxDistance then -1
    else
      let t := prefixSuffixPrep r1 r2
      let len1 := t.1
      let len2 := t.2.1
      let start := t.2.2
      if len1 = 0 then (if (len2 : Int) ≤ maxDistance then (len2 : Int) else -1)
      else if maxDistance < (len2 : Int) then
        distanceWithMax r1 r2 len1 len2 start maxDistance.toNat
      else dist r1 r2 len1 len2 start

/-! ### Reference definition: restricted Damerau-Levenshtein (OSA) distance

The specification's notion of distance: minimum number of single-character
insertions, deletions, substitutions and adjacent transpositions, each of
cost 1, with no substring edited more than once (optimal string alignment).
Stated as the canonical front-recursion. -/

/-- The Damerau-OSA distance, canonical front recurrence: on two non-empty
lists the distance is the minimum of substitution, deletion, insertion and —
when the two leading pairs are crossed — adjacent transposition, each of
cost 1.  The first argument is recursion fuel; every recursive call strictly
decreases `|a| + |b|`, so any fuel `≥ |a| + |b|` yields the same value
(`osaF_fuel_irrel`) and the arbitrary `0` of the fuel-exhausted case is
unreachable there. -/
def osaF : Nat → List Nat → List Nat → Nat
  | _, [], ys => ys.length
  | _, _ :: xs, [] => xs.length + 1
  | 0, _ :: _, _ :: _ => 0
  | fuel + 1, x :: xs, y :: ys =>
    let subst := osaF fuel xs ys + (if x = y then 0 else 1)
    let del := osaF fuel xs (y :: ys) + 1
    let ins := osaF fuel (x :: xs) ys + 1
    let base := min subst (min del ins)
    match xs, ys with
    | x2 :: xs2, y2 :: ys2 =>
      if x = y2 ∧ x2 = y then min base (osaF fuel xs2 ys2 + 1) else base
    | _, _ => base

/-- Executable entry point for the reference distance. -/
def osaDist (a b : List Nat) : Nat := osaF (a.length + b.length) a b

theorem osaF_fuel_irrel : ∀ (f g : Nat) (a b : List Nat),
    a.length + b.length ≤ f → a.length + b.length ≤ g → osaF f a b = osaF g a b := by
  intro f
  induction f with
  | zero =>
    intro g a b hf _
    match a, b with
    | [], ys => cases g <;> rfl
    | x :: xs, [] => cases g <;> rfl
    | x :: xs, y :: ys => simp at hf
  | succ f ih =>
    intro g a b hf hg
    match a, b with
    | [], ys => cases g <;> rfl
    | x :: xs, [] => cases g <;> rfl
    | x :: xs, y :: ys =>
      match g with
      | 0 => simp at hg
      | g + 1 =>
        simp only [List.length_cons] at hf hg
        have h1 : xs.length + ys.length ≤ f := by omega
        have h1g : xs.length + ys.length ≤ g := by omega
        have h2 : xs.length + (y :: ys).length ≤ f := by simp; omega
        have h2g : xs.length + (y :: ys).length ≤ g := by simp; omega
        have h3 : (x :: xs).length + ys.length ≤ f := by simp; omega
        have h3g : (x :: xs).length + ys.length ≤ g := by simp; omega
        simp only [osaF]
        rw [ih g xs ys h1 h1g, ih g xs (y :: ys) h2 h2g, ih g (x :: xs) ys h3 h3g]
        match xs, ys with
        | [], _ => rfl
        | _ :: _, [] => rfl
        | x2 :: xs2, y2 :: ys2 =>
          simp only [List.length_cons] at h1 h1g
          have h4 : xs2.length + ys2.length ≤ f := by omega
          have h4g : xs2.length + ys2.length ≤ g := by omega
          simp only
          rw [ih g xs2 ys2 h4 h4g]

/-! ### Association-list maps

Go's `map` types are modelled as association lists in first-insertion
order: lookup scans, insertion updates in place or appends.  Go map
iteration order is unspecified; the list order fixes one deterministic
order for the embedding (set-level facts do not depend on it). -/

/-- Lookup in an association list (Go `m[k]` with `ok`). -/
def aget {α β : Type} [DecidableEq α] : List (α × β) → α → Option β
  | [], _ => none
  | (a, b) :: rest, k => if a = k then some b else aget rest k

/-- Lookup with Go's zero-value default (Go `m[k]` without `ok`). -/
def agetD {α β : Type} [DecidableEq α] (m : List (α × β)) (k : α) (d : β) : β :=
  (aget m k).getD d

/-- Insert or overwrite in an association list (Go `m[k] = v`). -/
def aset {α β : Type} [DecidableEq α] : List (α × β) → α → β → List (α × β)
  | [], k, v => [(k, v)]
  | (a, b) :: rest, k, v => if a = k then (k, v) :: rest else (a, b) :: aset rest k v

/-- Remove a key (Go `delete(m, k)`). -/
def adel {α β : Type} [DecidableEq α] : List (α × β) → α → List (α × β)
  | [], _ => []
  | (a, b) :: rest, k => if a = k then rest else (a, b) :: adel rest k

/-- Add to a string set (`map[string]struct{}`) keeping insertion order. -/
def addU (l : List Str) (x : Str) : List Str := if x ∈ l then l else l ++ [x]

/-! ### String hash: `GetStringHash` -/

/-- Embeds `GetStringHash`: FNV-1a over the runes in 32-bit wrapping
arithmetic, masked by `compactMask`, low bits replaced by
`min(rune length, 3)`. -/
def getStringHash (compactMask : Nat) (str : Str) : Nat :=
  let lenRunes := str.length
  let lenMask := if lenRunes > 3 then 3 else lenRunes
  let hash := str.foldl (fun h r => ((h ^^^ r) * 16777619) % 4294967296) 2166136261
  (hash &&& compactMask) ||| lenMask

/-! ### The engine state: struct `SymSpell` -/

/-- The dictionary-relevant fields of the Go `SymSpell` struct.
`initialCapacity` and `compactLevel` only size allocations and derive
`compactMask`; the capacity is dropped and the mask is stored. -/
structure GoSymSpell where
  maxDictionaryEditDistance : Nat
  prefixLength : Nat
  countThreshold : Int
  compactMask : Nat
  maxDictionaryWordLength : Nat
  deletes : List (Nat × List Str)
  words : List (Str × Int)
  belowThresholdWords : List (Str × Int)
  bigrams : List (Str × Int)
  bigramCountMin : Int
deriving DecidableEq

/-- `math.MaxInt64`. -/
def maxInt64 : Int := 9223372036854775807

/-- `math.MaxInt32`. -/
def maxInt32 : Int := 2147483647

/-- Embeds `NewSymSpell` including its parameter validation (`none` models
the error returns). -/
def newSymSpell (initialCapacity maxDictionaryEditDistance prefixLength countThreshold : Int)
    (compactLevel : Nat) : Option GoSymSpell :=
  if initialCapacity < 0 then none
  else if maxDictionaryEditDistance < 0 then none
  else if prefixLength < 1 ∨ prefixLength ≤ maxDictionaryEditDistance then none
  else if countThreshold < 0 then none
  else if compactLevel > 16 then none
  else some
    { maxDictionaryEditDistance := maxDictionaryEditDistance.toNat
      prefixLength := prefixLength.toNat
      countThreshold := countThreshold
      compactMask := (4294967295 >>> (3 + compactLevel)) <<< 2
      maxDictionaryWordLength := 0
      deletes := []
      words := []
      belowThresholdWords := []
      bigrams := []
      bigramCountMin := maxInt64 }

/-! ### Deletes generator: `Edits` and `EditsPrefix` -/

/-- The body of the `for i := 0; i < len(word)` loop of `Edits`: build the
deletion, skip it if already present, otherwise add it and recurse (via
`recur`) when depth remains. -/
def goEditsStep (mDED : Nat) (recur : Str → Nat → List Str → List Str) (word : Str)
    (editDistance : Nat) (set : List Str) (i : Nat) : List Str :=
  let deleteStr := word.eraseIdx i
  if deleteStr ∈ set then set
  else
    let set := set ++ [deleteStr]
    if editDistance < mDED then recur deleteStr editDistance set
    else set

/-- Embeds the recursive `Edits`.  The first argument is recursion fuel;
`Edits` recurses only on words one character shorter, so fuel
`≥ word.length` makes the fuel-exhausted branch unreachable and the
definition agree with the Go recursion (`editsPrefixFn` supplies exactly
that). -/
def goEdits (mDED : Nat) : Nat → Str → Nat → List Str → List Str
  | 0, _, _, set => set
  | fuel + 1, word, editDistance, set =>
    let editDistance := editDistance + 1
    if word.length > 1 then
      (List.range word.length).foldl
        (goEditsStep mDED (fun w e s => goEdits mDED fuel w e s) word editDistance)
        set
    else set

/-- Embeds `EditsPrefix`. -/
def editsPrefixFn (mDED prefixLength : Nat) (key : Str) : List Str :=
  let hashSet : List Str := if key.length ≤ mDED then [[]] else []
  let key := if key.length > prefixLength then key.take prefixLength else key
  let hashSet := addU hashSet key
  goEdits mDED key.length key 0 hashSet

/-! ### Staging: `SuggestionStage` (suggestion_stage.go)

The `ChunkArrayNode` chunked storage is an append-only array whose
row/column split (`ChunkSize = 4096`) is an allocation detail; `Add`
appends at index `Count` and `Get` reads by index, so it is modelled as a
plain list indexed by position. -/

/-- A staged node: `Node{suggestion, next}`. -/
structure GoNode where
  suggestion : Str
  next : Int
deriving DecidableEq

/-- Embeds `SuggestionStage`: `deletes` maps a hash to `Entry{count, first}`
and `nodes` is the chunk array. -/
structure GoStage where
  deletes : List (Nat × (Int × Int))
  nodes : List GoNode
deriving DecidableEq

/-- Embeds `NewSuggestionStage` (capacities dropped). -/
def newStage : GoStage := { deletes := [], nodes := [] }

/-- Embeds `SuggestionStage.Add`. -/
def stageAdd (ss : GoStage) (deleteHash : Nat) (suggestion : Str) : GoStage :=
  let entry := (aget ss.deletes deleteHash).getD (0, -1)
  let next := entry.2
  let entry := (entry.1 + 1, (ss.nodes.length : Int))
  { deletes := aset ss.deletes deleteHash entry
    nodes := ss.nodes ++ [{ suggestion := suggestion, next := next }] }

/-- Embeds `SuggestionStage.CommitTo`.  The entire body of the Go function
is commented out, so it returns the permanent deletes map unchanged. -/
def commitTo (_ss : GoStage) (permanentDeletes : List (Nat × List Str)) :
    List (Nat × List Str) :=
  permanentDeletes

/-! ### `CreateDictionaryEntry` and `CommitStaged` -/

/-- The saturating addition used by `CreateDictionaryEntry`:
`if math.MaxInt64-countPrevious > count { count += countPrevious } else { count = math.MaxInt64 }`. -/
def satAdd (countPrevious count : Int) : Int :=
  if maxInt64 - countPrevious > count then count + countPrevious else maxInt64

/-- The tail of `CreateDictionaryEntry` from `s.words[key] = count` on:
install the word, bump `maxDictionaryWordLength`, and index the delete
variants either into the staging area or into the live `deletes` map,
returning `true`. -/
def insertWord (s : GoSymSpell) (key : Str) (count : Int) (staging : Option GoStage) :
    GoSymSpell × Option GoStage × Bool :=
  let s := { s with words := aset s.words key count }
  let s :=
    if key.length > s.maxDictionaryWordLength then
      { s with maxDictionaryWordLength := key.length }
    else s
  let edits := editsPrefixFn s.maxDictionaryEditDistance s.prefixLength key
  match staging with
  | some st =>
    let st := edits.foldl (fun st d => stageAdd st (getStringHash s.compactMask d) key) st
    (s, some st, true)
  | none =>
    let deletes := edits.foldl
      (fun m d =>
        let h := getStringHash s.compactMask d
        let bucket := (aget m h).getD []
        aset m h (if key ∈ bucket then bucket else bucket ++ [key]))
      s.deletes
    ({ s with deletes := deletes }, none, true)

/-- Embeds `CreateDictionaryEntry`: the updated engine, the updated
optional staging area, and the boolean return value. -/
def createDictionaryEntry (s : GoSymSpell) (key : Str) (count : Int)
    (staging : Option GoStage) : GoSymSpell × Option GoStage × Bool :=
  if count ≤ 0 ∧ s.countThreshold > 0 then (s, staging, false)
  else
    let count : Int := if count ≤ 0 then 0 else count
    -- countThreshold > 1 branch
    if s.countThreshold > 1 then
      match aget s.belowThresholdWords key with
      | some countPrevious =>
        let count := satAdd countPrevious count
        if count ≥ s.countThreshold then
          let s := { s with belowThresholdWords := adel s.belowThresholdWords key }
          insertWord s key count staging
        else
          ({ s with belowThresholdWords := aset s.belowThresholdWords key count }, staging, false)
      | none =>
        match aget s.words key with
        | some countPrevious =>
          ({ s with words := aset s.words key (satAdd countPrevious count) }, staging, false)
        | none =>
          if count < s.countThreshold then
            ({ s with belowThresholdWords := aset s.belowThresholdWords key count }, staging, false)
          else insertWord s key count staging
    else
      match aget s.words key with
      | some countPrevious =>
        ({ s with words := aset s.words key (satAdd countPrevious count) }, staging, false)
      | none =>
        if count < s.countThreshold then
          ({ s with belowThresholdWords := aset s.belowThresholdWords key count }, staging, false)
        else insertWord s key count staging

/-- Embeds `CommitStaged`. -/
def commitStaged (s : GoSymSpell) (staging : GoStage) : GoSymSpell :=
  { s with deletes := commitTo staging s.deletes }

/-! ### Suggestions and their order (`SuggestItem`, `SuggestItems.Less`) -/

/-- Embeds `SuggestItem`. -/
structure SuggestItem where
  term : Str
  distance : Int
  count : Int
deriving DecidableEq

/-- Embeds `SuggestItems.Less`: distance ascending, ties by count
descending. -/
def suggestLess (a b : SuggestItem) : Bool :=
  if a.distance = b.distance then decide (a.count > b.count) else decide (a.distance < b.distance)

/-- The sortedness guarantee of Go's `sort.Sort` for `SuggestItems`: no
later element is `Less` than an earlier one.  `sort.Sort` promises exactly
a permutation that is sorted in this sense — it is documented *not* to be
stable — so the embedding treats the sorting routine as a parameter
constrained by this contract. -/
def IsGoSort (f : List SuggestItem → List SuggestItem) : Prop :=
  ∀ l : List SuggestItem, (f l).Perm l ∧ (f l).Sorted (fun a b => suggestLess b a = false)

/-- A concrete instance of the `sort.Sort` contract: insertion sort in the
non-strict order.  (For slices of fewer than 12 elements Go's `sort.Sort`
itself runs plain insertion sort, so on the small concrete dictionaries
evaluated below this is the exact library behaviour.) -/
def goSortSmall (l : List SuggestItem) : List SuggestItem :=
  l.insertionSort (fun a b => suggestLess b a = false)

/-! ### `Lookup` -/

/-- Embeds the `Verbosity` enumeration. -/
inductive Verbosity
  | top
  | closest
  | all
deriving DecidableEq

/-- The scan loop of `deleteInSuggestionPrefix`: advance pointer `j` to the
next occurrence of each delete character in turn; the pointer is *not*
moved past a matched character (faithful to the Go loop). -/
def dispLoop (sugg : Str) : List Nat → Nat → Bool
  | [], _ => true
  | delChar :: rest, j =>
    let j := j + ((sugg.drop j).takeWhile (· ≠ delChar)).length
    if j = sugg.length then false else dispLoop sugg rest j

/-- Embeds `deleteInSuggestionPrefix`: checks that the characters of
`del` appear in order inside the first `min(suggestionLen, prefixLength)`
characters of `suggestion`. -/
def deleteInSuggestionPfx (prefixLength : Nat) (del : Str) (suggestion : Str) : Bool :=
  if del.length = 0 then true
  else
    let suggestionLen :=
      if prefixLength < suggestion.length then prefixLength else suggestion.length
    dispLoop (suggestion.take suggestionLen) del 0

/-- Mutable state of the main `Lookup` loop: the accumulator, the shrinking
bound `maxEditDistance2`, and the two visited sets `hashset1` (deletes of
the input) and `hashset2` (suggestions already considered). -/
structure LkSt where
  suggestions : List SuggestItem
  maxED2 : Int
  hs1 : List Str
  hs2 : List Str
deriving DecidableEq

/-- The admission tail of `Lookup`'s suggestion loop: record the updated
`hashset2`, and — when a distance was computed (`res.1 = some d`) and fits
the current bound — admit the item under the verbosity-specific rules. -/
def lkAdmit (S : GoSymSpell) (verbosity : Verbosity) (suggestion : Str) (st : LkSt)
    (res : Option Int × List Str) : LkSt :=
  let st := { st with hs2 := res.2 }
  match res.1 with
  | none => st
  | some distance =>
    if distance ≤ st.maxED2 then
      let suggestionCount := agetD S.words suggestion 0
      let si : SuggestItem :=
        { term := suggestion, distance := distance, count := suggestionCount }
      if st.suggestions ≠ [] ∧ verbosity = .top then
        if distance < st.maxED2 ∨
            suggestionCount > (st.suggestions.headD ⟨[], 0, 0⟩).count then
          { st with maxED2 := distance, suggestions := st.suggestions.set 0 si }
        else st
      else
        let sgs :=
          if st.suggestions ≠ [] ∧ verbosity = .closest ∧ distance < st.maxED2 then []
          else st.suggestions
        let med2 := if verbosity ≠ .all then distance else st.maxED2
        { st with maxED2 := med2, suggestions := sgs ++ [si] }
    else st

/-- The body of `Lookup`'s inner `for suggestion := range dictSuggestions`
loop; each Go `continue` corresponds to returning the state. -/
def lkSugg (S : GoSymSpell) (input : Str) (verbosity : Verbosity) (maxEditDistance : Int)
    (inputPrefixLen : Nat) (candidate : Str) (st : LkSt) (suggestion : Str) : LkSt :=
  let inputLen : Int := input.length
  let candidateLen := candidate.length
  let suggestionLen : Int := suggestion.length
  if suggestion = input then st
  else if ((suggestionLen - inputLen).natAbs : Int) > st.maxED2 ∨
      suggestionLen < (candidateLen : Int) ∨
      (suggestionLen = (candidateLen : Int) ∧ suggestion ≠ candidate) then st
  else
    let suggPrefixLen : Nat := min suggestion.length S.prefixLength
    if suggPrefixLen > inputPrefixLen ∧
        ((suggPrefixLen : Int) - (candidateLen : Int)) > st.maxED2 then st
    else
      -- distance evaluation, four cases; the first component is the
      -- computed distance (`none` models a Go `continue`), the second the
      -- possibly-updated `hashset2`
      let res : Option Int × List Str :=
        if candidateLen = 0 then
          let distance : Int := if inputLen > suggestionLen then inputLen else suggestionLen
          if distance > st.maxED2 then (none, st.hs2)
          else if suggestion ∈ st.hs2 then (none, st.hs2)
          else (some distance, st.hs2 ++ [suggestion])
        else if suggestion.length = 1 then
          let distance : Int :=
            if (suggestion.getD 0 0) ∈ input then inputLen - 1 else inputLen
          if distance > st.maxED2 then (none, st.hs2)
          else if suggestion ∈ st.hs2 then (none, st.hs2)
          else (some distance, st.hs2 ++ [suggestion])
        else if (S.prefixLength : Int) - maxEditDistance = (candidateLen : Int) then
          let minLen : Int := min inputLen suggestionLen - (S.prefixLength : Int)
          if (minLen > 1 ∧
                input.drop (inputLen - minLen).toNat ≠
                  suggestion.drop (suggestionLen - minLen).toNat) ∨
              (minLen > 0 ∧
                input.getD (inputLen - minLen).toNat 0 ≠
                  suggestion.getD (suggestionLen - minLen).toNat 0 ∧
                (input.getD (inputLen - minLen - 1).toNat 0 ≠
                    suggestion.getD (suggestionLen - minLen).toNat 0 ∨
                  input.getD (inputLen - minLen).toNat 0 ≠
                    suggestion.getD (suggestionLen - minLen - 1).toNat 0)) then
            (none, st.hs2)
          else (some 0, st.hs2)
        else
          if (verbosity ≠ .all ∧ ¬ deleteInSuggestionPfx S.prefixLength candidate suggestion) ∨
              suggestion ∈ st.hs2 then (none, st.hs2)
          else
            let hs2 := st.hs2 ++ [suggestion]
            let distance := goDistance input suggestion st.maxED2
            if distance < 0 then (none, hs2) else (some distance, hs2)
      lkAdmit S verbosity suggestion st res

/-- One candidate's delete-expansion step (`for i := 0; i < candidateLen`):
returns the updated `hashset1` together with the newly appended
candidates. -/
def lkExpand (candidate : Str) (hs1 : List Str) : List Str × List Str :=
  (List.range candidate.length).foldl
    (fun acc i =>
      let deleteStr := candidate.eraseIdx i
      if deleteStr ∈ acc.1 then acc
      else (acc.1 ++ [deleteStr], acc.2 ++ [deleteStr]))
    (hs1, [])

/-- The main worklist loop of `Lookup` (`for candidatePointer < len(candidates)`).
Fuel-driven; `lkLoop_isSome` below shows the fuel budget supplied by
`goLookup` is never exhausted, so the `none` (fuel-out) case is
unreachable there. -/
def lkLoop (S : GoSymSpell) (input : Str) (verbosity : Verbosity) (maxEditDistance : Int)
    (inputPrefixLen : Nat) : Nat → List Str → LkSt → Option LkSt
  | 0, _, _ => none
  | _ + 1, [], st => some st
  | fuel + 1, candidate :: rest, st =>
    let candidateLen := candidate.length
    let lengthDiff : Int := (inputPrefixLen : Int) - (candidateLen : Int)
    if lengthDiff > st.maxED2 then
      -- early termination: skip candidate in All, stop otherwise
      if verbosity = .all then
        lkLoop S input verbosity maxEditDistance inputPrefixLen fuel rest st
      else some st
    else
      let st :=
        match aget S.deletes (getStringHash S.compactMask candidate) with
        | none => st
        | some bucket =>
          bucket.foldl (lkSugg S input verbosity maxEditDistance inputPrefixLen candidate) st
      let expanded : List Str × List Str :=
        if lengthDiff < maxEditDistance ∧ (candidateLen : Int) ≤ (S.prefixLength : Int) then
          if verbosity ≠ .all ∧ lengthDiff ≥ st.maxED2 then (st.hs1, [])
          else lkExpand candidate st.hs1
        else (st.hs1, [])
      lkLoop S input verbosity maxEditDistance inputPrefixLen fuel (rest ++ expanded.2)
        { st with hs1 := expanded.1 }

/-- The duplicate-removal pass after sorting: keep the first occurrence of
each term (the `seen` map of the Go code). -/
def dedupGo : List SuggestItem → List Str → List SuggestItem
  | [], _ => []
  | s :: rest, seen =>
    if s.term ∈ seen then dedupGo rest seen
    else s :: dedupGo rest (seen ++ [s.term])

/-- The post-loop block of `Lookup`: sort (via the supplied `sort.Sort`
model) and drop duplicate terms, only when more than one suggestion
accumulated. -/
def lkSortDedup (sortFn : List SuggestItem → List SuggestItem) (l : List SuggestItem) :
    List SuggestItem :=
  if l.length > 1 then dedupGo (sortFn l) []
  else l

/-- The `end:` label of `Lookup`: optionally synthesize the unknown-word
item. -/
def lkWrap (input : Str) (maxEditDistance : Int) (includeUnknown : Bool)
    (l : List SuggestItem) : List SuggestItem :=
  if includeUnknown ∧ l = [] then
    [{ term := input, distance := maxEditDistance + 1, count := 0 }]
  else l

/-- The exact-match head of `Lookup`: the singleton `(input, 0, count)` when
`input ∈ words`, else nothing. -/
def goExact (S : GoSymSpell) (input : Str) : List SuggestItem :=
  match aget S.words input with
  | some suggestionCount => [{ term := input, distance := 0, count := suggestionCount }]
  | none => []

/-- `inputPrefixLen`: the truncated input length used to seed the worklist. -/
def goIpl (S : GoSymSpell) (input : Str) : Nat :=
  if input.length > S.prefixLength then S.prefixLength else input.length

/-- Embeds `Lookup`.  `none` models the panic on
`maxEditDistance > maxDictionaryEditDistance`; every other path returns
`some` (`claimC8`). -/
def goLookup (S : GoSymSpell) (sortFn : List SuggestItem → List SuggestItem) (input : Str)
    (verbosity : Verbosity) (maxEditDistance : Int) (includeUnknown : Bool) :
    Option (List SuggestItem) :=
  if maxEditDistance > (S.maxDictionaryEditDistance : Int) then none
  else
    let inputLen : Int := input.length
    -- early exit: word too big to possibly match
    if inputLen - maxEditDistance > (S.maxDictionaryWordLength : Int) then
      some (lkWrap input maxEditDistance includeUnknown [])
    else
      let suggestions : List SuggestItem := goExact S input
      if (aget S.words input).isSome ∧ verbosity ≠ .all then
        some (lkWrap input maxEditDistance includeUnknown suggestions)
      else if maxEditDistance = 0 then
        some (lkWrap input maxEditDistance includeUnknown suggestions)
      else
        let inputPrefixLen : Nat := goIpl S input
        let cand0 : Str := input.take inputPrefixLen
        let st0 : LkSt :=
          { suggestions := suggestions, maxED2 := maxEditDistance, hs1 := [], hs2 := [input] }
        let fuel := (inputPrefixLen + 1).factorial + 1
        match lkLoop S input verbosity maxEditDistance inputPrefixLen fuel [cand0] st0 with
        | none => none
        | some st =>
          some (lkWrap input maxEditDistance includeUnknown (lkSortDedup sortFn st.suggestions))

/-! ### `LookupCompound`

`LookupCompound` mixes the integer algorithm with a handful of IEEE-754
double computations (`math.Pow` fallback counts, the Naive-Bayes combi
gate, the split-pair count estimate, and the final sentence count).  Those
four float-valued operations are abstracted into a `FloatOps` parameter;
every property claimed of `LookupCompound` below holds for *all*
instantiations, hence in particular for the IEEE one.  The tokenizer
(`parseWords`, a regular expression) is likewise treated as an external
collaborator and passed as a parameter. -/

/-- The four floating-point computations of `LookupCompound`. -/
structure FloatOps where
  /-- `int64(10 / math.Pow(10, float64(l)))`: estimated count of an unknown
  word of length `l`. -/
  estCount : Nat → Int
  /-- `float64(combiCount) > float64(best1Count)/n*float64(best2Count)`:
  the Naive-Bayes acceptance test of the combi branch. -/
  combiGate : Int → Int → Int → Bool
  /-- `int64(float64(count1)/n*float64(count2))`: the split-pair count
  estimate when the bigram is unknown. -/
  splitCount : Int → Int → Int
  /-- `int64(n * Π(countᵢ/n))`: the composite sentence count from the part
  counts. -/
  sentenceCount : List Int → Int

/-- A concrete `FloatOps` instantiation used by witnesses.  `estCount`
computes the exact value of `int64(10 / math.Pow(10, float64(l)))` for the
powers of ten involved; the remaining operations, whose values no claim
constrains, are constants. -/
def floatOpsModel : FloatOps where
  estCount := fun l => if l = 0 then 10 else if l = 1 then 1 else 0
  combiGate := fun _ _ _ => false
  splitCount := fun _ _ => 0
  sentenceCount := fun _ => 0

/-- `strings.TrimSpace` for the composed sentence (tokens contain no
whitespace, so only the ASCII spaces inserted by the join are relevant). -/
def trimSpaceStr (s : Str) : Str :=
  (((s.dropWhile (· = 32)).reverse).dropWhile (· = 32)).reverse

/-- The split-position loop of `LookupCompound` (`for j := 1; j < len`);
propagates the `Option` of the inner `Lookup` calls. -/
def lcSplit (S : GoSymSpell) (sortFn : List SuggestItem → List SuggestItem) (fops : FloatOps)
    (editDistanceMax : Int) (tok : Str) (singleSuggestions : List SuggestItem) :
    List Nat → Option SuggestItem → Option (Option SuggestItem)
  | [], best => some best
  | j :: js, best =>
    (goLookup S sortFn (tok.take j) .top editDistanceMax false).bind fun suggestions1 =>
    if suggestions1 = [] then
      lcSplit S sortFn fops editDistanceMax tok singleSuggestions js best
    else
      (goLookup S sortFn (tok.drop j) .top editDistanceMax false).bind fun suggestions2 =>
      if suggestions2 = [] then
        lcSplit S sortFn fops editDistanceMax tok singleSuggestions js best
      else
        let s1 := suggestions1.headD ⟨[], 0, 0⟩
        let s2 := suggestions2.headD ⟨[], 0, 0⟩
        let splitTerm := s1.term ++ [32] ++ s2.term
        let distance2raw := goDistance tok splitTerm editDistanceMax
        let distance2 := if distance2raw < 0 then editDistanceMax + 1 else distance2raw
        -- `continue` when strictly worse than the current best
        if best.isSome ∧ distance2 > (best.getD ⟨[], 0, 0⟩).distance then
          lcSplit S sortFn fops editDistanceMax tok singleSuggestions js best
        else
          let best := if best.isSome ∧ distance2 < (best.getD ⟨[], 0, 0⟩).distance then none
            else best
          let splitCount :=
            match aget S.bigrams splitTerm with
            | some bigramCount =>
              if singleSuggestions ≠ [] then
                let s0 := singleSuggestions.headD ⟨[], 0, 0⟩
                if s1.term ++ s2.term = tok then max bigramCount (s0.count + 2)
                else if s1.term = s0.term ∨ s2.term = s0.term then
                  max bigramCount (s0.count + 1)
                else bigramCount
              else if s1.term ++ s2.term = tok then
                max bigramCount (max s1.count s2.count + 2)
              else bigramCount
            | none => min S.bigramCountMin (fops.splitCount s1.count s2.count)
          let suggestionSplit : SuggestItem :=
            { term := splitTerm, distance := distance2, count := splitCount }
          let best :=
            if best.isNone ∨ suggestionSplit.count > (best.getD ⟨[], 0, 0⟩).count then
              some suggestionSplit
            else best
          lcSplit S sortFn fops editDistanceMax tok singleSuggestions js best

/-- The per-token walk of `LookupCompound`; carries the previous token and
the `lastCombi` flag, and appends exactly one part per token. -/
def lcLoop (S : GoSymSpell) (sortFn : List SuggestItem → List SuggestItem) (fops : FloatOps)
    (editDistanceMax : Int) :
    List Str → Option Str → Bool → List SuggestItem → Option (List SuggestItem)
  | [], _, _, parts => some parts
  | tok :: rest, prevTok, lastCombi, parts =>
    (goLookup S sortFn tok .top editDistanceMax false).bind fun suggestions =>
    let combi : Option (List SuggestItem) :=
      match prevTok with
      | some prev =>
        if lastCombi then none
        else
          match goLookup S sortFn (prev ++ tok) .top editDistanceMax false with
          | none => none  -- unreachable when the panic guard holds
          | some suggestionsCombi =>
            if suggestionsCombi = [] then none
            else
              let best1 := parts.getLastD ⟨[], 0, 0⟩
              let best2 : SuggestItem :=
                if suggestions ≠ [] then suggestions.headD ⟨[], 0, 0⟩
                else { term := tok, distance := editDistanceMax + 1,
                       count := fops.estCount tok.length }
              let sc0 := suggestionsCombi.headD ⟨[], 0, 0⟩
              let distance1 := best1.distance + best2.distance
              if distance1 ≥ 0 ∧ (sc0.distance + 1 < distance1 ∨
                  (sc0.distance + 1 = distance1 ∧
                    fops.combiGate sc0.count best1.count best2.count)) then
                some (parts.dropLast ++ [{ sc0 with distance := sc0.distance + 1 }])
              else none
      | none => none
    match combi with
    | some parts =>
      lcLoop S sortFn fops editDistanceMax rest (some tok) true parts
    | none =>
      let s0 := suggestions.headD ⟨[], 0, 0⟩
      if suggestions ≠ [] ∧ (s0.distance = 0 ∨ tok.length = 1) then
        lcLoop S sortFn fops editDistanceMax rest (some tok) false (parts ++ [s0])
      else
        let seed : Option SuggestItem := if suggestions ≠ [] then some s0 else none
        if tok.length > 1 then
          (lcSplit S sortFn fops editDistanceMax tok suggestions
              (List.range' 1 (tok.length - 1)) seed).bind fun best =>
          match best with
          | some b =>
            lcLoop S sortFn fops editDistanceMax rest (some tok) false (parts ++ [b])
          | none =>
            let si : SuggestItem :=
              { term := tok, distance := editDistanceMax + 1, count := fops.estCount tok.length }
            lcLoop S sortFn fops editDistanceMax rest (some tok) false (parts ++ [si])
        else
          let si : SuggestItem :=
            { term := tok, distance := editDistanceMax + 1, count := fops.estCount tok.length }
          lcLoop S sortFn fops editDistanceMax rest (some tok) false (parts ++ [si])

/-- Embeds `LookupCompound`; `none` models a panic escaping from an inner
`Lookup` call (impossible when `editDistanceMax ≤ maxDictionaryEditDistance`,
see `goLookupCompound_single`). -/
def goLookupCompound (S : GoSymSpell) (sortFn : List SuggestItem → List SuggestItem)
    (fops : FloatOps) (tokenize : Str → List Str) (input : Str) (editDistanceMax : Int) :
    Option (List SuggestItem) :=
  let termList1 := tokenize input
  (lcLoop S sortFn fops editDistanceMax termList1 none false []).map fun suggestionParts =>
    let term := trimSpaceStr (suggestionParts.foldl (fun acc si => acc ++ si.term ++ [32]) [])
    let count := fops.sentenceCount (suggestionParts.map (·.count))
    [{ term := term, distance := goDistance input term maxInt32, count := count }]

/-! ### Concrete fixtures

ASCII words as rune lists, and small engines built exactly as the
repository's own tests build them (`NewSymSpell(16, ·, ·, ·, 5)` followed by
`CreateDictionaryEntry` calls). -/

/-- The engine state produced by `NewSymSpell(16, mDED, pfxLen, thresh, 5)`
(see `mkSymSpell_eq_new`). -/
def mkSymSpell (mDED pfxLen : Nat) (thresh : Int) : GoSymSpell :=
  { maxDictionaryEditDistance := mDED, prefixLength := pfxLen, countThreshold := thresh,
    compactMask := (4294967295 >>> 8) <<< 2, maxDictionaryWordLength := 0,
    deletes := [], words := [], belowThresholdWords := [], bigrams := [],
    bigramCountMin := maxInt64 }

theorem mkSymSpell_eq_new :
    newSymSpell 16 2 7 1 5 = some (mkSymSpell 2 7 1) ∧
    newSymSpell 16 1 3 1 5 = some (mkSymSpell 1 3 1) ∧
    newSymSpell 16 2 7 0 5 = some (mkSymSpell 2 7 0) := by decide

def wA : Str := [97]                         -- "a"
def wAa : Str := [97, 97]                    -- "aa"
def wAb : Str := [97, 98]                    -- "ab"
def wAc : Str := [97, 99]                    -- "ac"
def wAab : Str := [97, 97, 98]               -- "aab"
def wBba : Str := [98, 98, 97]               -- "bba"
def wPip : Str := [112, 105, 112]            -- "pip"
def wPipe : Str := [112, 105, 112, 101]      -- "pipe"
def wPips : Str := [112, 105, 112, 115]      -- "pips"
def wPawn : Str := [112, 97, 119, 110]       -- "pawn"
def wPawnn : Str := [112, 97, 119, 110, 110] -- "pawnn"

/-- The dictionary of the repository's own shared-prefix test:
`NewSymSpell(16, 1, 3, 1, 5)` with `("pipe", 5)` and `("pips", 10)`. -/
def fixPip : GoSymSpell :=
  (createDictionaryEntry (createDictionaryEntry (mkSymSpell 1 3 1) wPipe 5 none).1
    wPips 10 none).1

/-- `NewSymSpell(16, 2, 7, 1, 5)` with the single word `("aab", 5)`. -/
def fixAab : GoSymSpell := (createDictionaryEntry (mkSymSpell 2 7 1) wAab 5 none).1

/-- `NewSymSpell(16, 1, 3, 1, 5)` with `("ab", 5)` and `("ac", 5)`. -/
def fixTie : GoSymSpell :=
  (createDictionaryEntry (createDictionaryEntry (mkSymSpell 1 3 1) wAb 5 none).1
    wAc 5 none).1

/-- A second implementation of the `sort.Sort` contract (`IsGoSort`,
proved in `claimC5_counterexample`): sort the reversed list, so that
fully tied elements come out in reversed insertion order.  Go's
`sort.Sort` documentation explicitly leaves the order of tied elements
open. -/
def badSort (l : List SuggestItem) : List SuggestItem :=
  (l.reverse).insertionSort (fun a b => suggestLess b a = false)

/-! ## Claim theorems -/

/-- C3 (code bug): `Distance` promises the Damerau-OSA distance, but the Go
port stores `prevChar1Costs[j] = currentCost` *before* `currentCost =
leftCharCost` (the reference implementation assigns `prevChar1Costs[j] =
currentCost = leftCharCost` right-to-left), so the transposition lookback
reads the wrong cell.  On `"bba"`/`"aab"` the true OSA distance is 2
(substitute the first character, transpose the last two), yet `Distance`
returns 3 with `maxDistance = 3` (unbanded path) and `-1` with
`maxDistance = 2` (banded path). -/
theorem claimC3_code_eval :
    goDistance wBba wAab 3 = 3 ∧ goDistance wBba wAab 2 = -1 ∧
    osaDist wBba wAab = 2 := by decide

/-- C2 (code bug): the body of `SuggestionStage.CommitTo` is entirely
commented out, so committing staged entries leaves the permanent `deletes`
map empty even though eleven delete/term pairs were staged, and a
dictionary loaded through the staged path is not reachable by
delete-distance lookups: `Lookup("pawnn", Top, 2)` finds nothing, while the
same dictionary built without staging returns `("pawn", 1, 10)`. -/
theorem claimC2_code_eval :
    (createDictionaryEntry (mkSymSpell 2 7 1) wPawn 10 (some newStage)).1.deletes = [] ∧
    ((createDictionaryEntry (mkSymSpell 2 7 1) wPawn 10
        (some newStage)).2.1.getD newStage).nodes.length = 11 ∧
    (commitStaged (createDictionaryEntry (mkSymSpell 2 7 1) wPawn 10 (some newStage)).1
        ((createDictionaryEntry (mkSymSpell 2 7 1) wPawn 10
          (some newStage)).2.1.getD newStage)).deletes = [] ∧
    goLookup (commitStaged (createDictionaryEntry (mkSymSpell 2 7 1) wPawn 10
        (some newStage)).1
        ((createDictionaryEntry (mkSymSpell 2 7 1) wPawn 10
          (some newStage)).2.1.getD newStage)) goSortSmall wPawnn .top 2 false = some [] ∧
    goLookup (createDictionaryEntry (mkSymSpell 2 7 1) wPawn 10 none).1 goSortSmall
        wPawnn .top 2 false =
      some [{ term := wPawn, distance := 1, count := 10 }] := by decide

/-- C1 (code bug): on the repository's own shared-prefix test dictionary,
`Lookup("pip", All, 1)` admits both words through the boundary tail-check
branch (`prefixLength − maxEditDistance == candidateLen`), which never
computes a distance and leaves `distance = 0`, although the true Damerau-OSA
distance of `"pip"` to either word is 1; the suggestions are returned with
distance 0. -/
theorem claimC1_code_eval :
    goLookup fixPip goSortSmall wPip .all 1 false =
      some [{ term := wPips, distance := 0, count := 10 },
            { term := wPipe, distance := 0, count := 5 }] ∧
    osaDist wPip wPips = 1 ∧ osaDist wPip wPipe = 1 := by decide

/-- C7 counterexample: with `countThreshold = 0`, a single
`CreateDictionaryEntry(key, 0, nil)` call installs the key in `words` with
count 0, refuting "every value in `words` is ≥ 1 when countThreshold = 0"
(step 1 of the spec's own procedure sets `count = 0` and step 4 stores
it). -/
theorem claimC7_counterexample :
    (createDictionaryEntry (mkSymSpell 2 7 0) wA 0 none).1.words = [(wA, 0)] ∧
    ¬ (∀ v, aget (createDictionaryEntry (mkSymSpell 2 7 0) wA 0 none).1.words wA = some v →
        1 ≤ v) := by decide

/-- C6 counterexample: with `maxDictionaryEditDistance = 0`,
`EditsPrefix("ab")` still contains the single-deletion variants `"b"` and
`"a"`: `Edits` increments the depth *before* testing it against the bound,
so depth-1 deletions are always emitted. -/
theorem claimC6_counterexample :
    editsPrefixFn 0 3 wAb = [wAb, [98], [97]] ∧
    editsPrefixFn 0 7 wAb = [wAb, [98], [97]] := by decide

/-- C4 counterexample: `"aab"` is in the dictionary with true Damerau-OSA
distance 2 from the input `"bba"`, yet `Lookup("bba", All, 2)` returns
nothing — the only candidate buckets reach `"aab"` through the general
branch, whose distance call returns `-1` because of the transposition
lookback bug (claim C3), so verbosity `All` does not return every term
within `maxEditDistance`. -/
theorem claimC4_counterexample :
    aget fixAab.words wAab = some 5 ∧ osaDist wBba wAab = 2 ∧
    goLookup fixAab goSortSmall wBba .all 2 false = some [] := by decide

/-- The non-strict suggestion order underlying `IsGoSort`: the negation of
`Less` with swapped arguments. -/
theorem suggestLess_false_iff (a b : SuggestItem) :
    suggestLess b a = false ↔
      a.distance < b.distance ∨ (a.distance = b.distance ∧ b.count ≤ a.count) := by
  unfold suggestLess
  by_cases h : b.distance = a.distance
  all_goals simp [h]
  all_goals omega

instance : IsTotal SuggestItem (fun a b => suggestLess b a = false) := by
  constructor
  intro a b
  rw [suggestLess_false_iff, suggestLess_false_iff]
  omega

instance : IsTrans SuggestItem (fun a b => suggestLess b a = false) := by
  constructor
  intro a b c hab hbc
  rw [suggestLess_false_iff] at hab hbc ⊢
  omega

/-- `goSortSmall` satisfies the `sort.Sort` contract. -/
theorem isGoSort_goSortSmall : IsGoSort goSortSmall := by
  intro l
  exact ⟨List.perm_insertionSort _ l, List.sorted_insertionSort _ l⟩

/-- `badSort` also satisfies the `sort.Sort` contract. -/
theorem isGoSort_badSort : IsGoSort badSort := by
  intro l
  constructor
  · exact (List.perm_insertionSort _ l.reverse).trans (List.reverse_perm l)
  · exact List.sorted_insertionSort _ l.reverse

/-- C5 counterexample: on the dictionary `{"ab": 5, "ac": 5}` the lookup of
`"aa"` (All, 1) accumulates `("ab",1,5)` then `("ac",1,5)` — two items tied
on both distance and count, in that insertion order (the stable
`goSortSmall` exhibits it).  The code sorts with `sort.Sort`, which only
guarantees the `IsGoSort` contract and is documented as *not* stable;
`badSort` satisfies the same contract yet returns the tied items in the
opposite order, so the claimed stability with respect to insertion order
does not hold of the code. -/
theorem claimC5_counterexample :
    ¬ (∀ f, IsGoSort f → goLookup fixTie f wAa .all 1 false =
        some [{ term := wAb, distance := 1, count := 5 },
              { term := wAc, distance := 1, count := 5 }]) ∧
    goLookup fixTie goSortSmall wAa .all 1 false =
      some [{ term := wAb, distance := 1, count := 5 },
            { term := wAc, distance := 1, count := 5 }] ∧
    goLookup fixTie badSort wAa .all 1 false =
      some [{ term := wAc, distance := 1, count := 5 },
            { term := wAb, distance := 1, count := 5 }] ∧
    suggestLess { term := wAb, distance := 1, count := 5 }
        { term := wAc, distance := 1, count := 5 } = false ∧
    suggestLess { term := wAc, distance := 1, count := 5 }
        { term := wAb, distance := 1, count := 5 } = false := by
  refine ⟨?_, by decide, by decide, by decide, by decide⟩
  intro h
  have hb := h badSort isGoSort_badSort
  have hv : goLookup fixTie badSort wAa .all 1 false =
      some [{ term := wAc, distance := 1, count := 5 },
            { term := wAb, distance := 1, count := 5 }] := by decide
  rw [hv] at hb
  exact absurd hb (by decide)

/-! ### Association-list lemmas -/

theorem aget_aset {α β : Type} [DecidableEq α] (m : List (α × β)) (k : α) (v : β) (t : α) :
    aget (aset m k v) t = if k = t then some v else aget m t := by
  induction m with
  | nil => by_cases h : k = t <;> simp [aset, aget, h]
  | cons p rest ih =>
    obtain ⟨a, b⟩ := p
    by_cases hak : a = k
    · subst hak
      by_cases hat : a = t <;> simp [aset, aget, hat]
    · by_cases hat : a = t
      · subst hat
        have hkt : ¬ (k = a) := fun h => hak h.symm
        simp [aset, aget, hak, if_neg hkt]
      · simp [aset, aget, hak, hat, ih]

theorem aget_adel {α β : Type} [DecidableEq α] (m : List (α × β)) (k t : α) (v : β)
    (h : aget (adel m k) t = some v) : aget m t = some v ∨ t = k := by
  induction m with
  | nil => simp [adel, aget] at h
  | cons p rest ih =>
    obtain ⟨a, b⟩ := p
    by_cases hak : a = k
    · subst hak
      simp only [adel, if_pos rfl] at h
      by_cases hat : a = t
      · subst hat
        right; rfl
      · left
        simpa [aget, hat] using h
    · simp only [adel, if_neg hak] at h
      by_cases hat : a = t
      · subst hat
        left
        simpa [aget] using h
      · simp only [aget, if_neg hat] at h ⊢
        exact ih h

/-! ### C7: the `words` threshold invariant -/

/-- A sequence of non-staged `CreateDictionaryEntry` calls. -/
def runEntries : GoSymSpell → List (Str × Int) → GoSymSpell
  | S, [] => S
  | S, (k, c) :: rest => runEntries (createDictionaryEntry S k c none).1 rest

theorem insertWord_words (S : GoSymSpell) (key : Str) (count : Int)
    (staging : Option GoStage) :
    (insertWord S key count staging).1.words = aset S.words key count := by
  unfold insertWord
  cases staging <;> simp only [] <;> split <;> rfl

theorem insertWord_threshold (S : GoSymSpell) (key : Str) (count : Int)
    (staging : Option GoStage) :
    (insertWord S key count staging).1.countThreshold = S.countThreshold := by
  unfold insertWord
  cases staging <;> simp only [] <;> split <;> rfl

theorem satAdd_ge (th countPrevious count : Int) (h1 : th ≤ countPrevious) (h2 : 0 ≤ count)
    (h3 : th ≤ maxInt64) : th ≤ satAdd countPrevious count := by
  unfold satAdd
  split <;> omega

/-- One `CreateDictionaryEntry` call preserves the threshold field and the
invariant that every count in `words` is at least the threshold. -/
theorem cde_words_ge (S : GoSymSpell) (key : Str) (count : Int)
    (hth : S.countThreshold ≤ maxInt64)
    (hinv : ∀ t v, aget S.words t = some v → S.countThreshold ≤ v) :
    (createDictionaryEntry S key count none).1.countThreshold = S.countThreshold ∧
    ∀ t v, aget (createDictionaryEntry S key count none).1.words t = some v →
      S.countThreshold ≤ v := by
  have hset : ∀ (c : Int), S.countThreshold ≤ c →
      (∀ t v, aget (aset S.words key c) t = some v → S.countThreshold ≤ v) := by
    intro c hc t v hv
    rw [aget_aset] at hv
    split at hv
    · cases hv; exact hc
    · exact hinv t v hv
  unfold createDictionaryEntry
  split
  · exact ⟨rfl, hinv⟩
  · rename_i hneg
    generalize hgen : (if count ≤ 0 then (0 : Int) else count) = c0
    have hc0nn : 0 ≤ c0 := by rw [← hgen]; split <;> omega
    split
    · rename_i hgt1
      cases hbt : aget S.belowThresholdWords key with
      | some countPrevious =>
        simp only []
        split
        · rename_i hge
          refine ⟨insertWord_threshold _ _ _ _, ?_⟩
          intro t v hv
          rw [insertWord_words] at hv
          exact hset _ hge t v hv
        · exact ⟨rfl, hinv⟩
      | none =>
        cases hw : aget S.words key with
        | some countPrevious =>
          refine ⟨rfl, hset _ ?_⟩
          exact satAdd_ge _ _ _ (hinv key countPrevious hw) hc0nn hth
        | none =>
          simp only []
          split
          · exact ⟨rfl, hinv⟩
          · rename_i hnlt
            refine ⟨insertWord_threshold _ _ _ _, ?_⟩
            intro t v hv
            rw [insertWord_words] at hv
            exact hset _ (by omega) t v hv
    · cases hw : aget S.words key with
      | some countPrevious =>
        refine ⟨rfl, hset _ ?_⟩
        exact satAdd_ge _ _ _ (hinv key countPrevious hw) hc0nn hth
      | none =>
        simp only []
        split
        · exact ⟨rfl, hinv⟩
        · rename_i hnlt
          refine ⟨insertWord_threshold _ _ _ _, ?_⟩
          intro t v hv
          rw [insertWord_words] at hv
          exact hset _ (by omega) t v hv

theorem runEntries_words_ge (entries : List (Str × Int)) : ∀ S : GoSymSpell,
    S.countThreshold ≤ maxInt64 →
    (∀ t v, aget S.words t = some v → S.countThreshold ≤ v) →
    (runEntries S entries).countThreshold = S.countThreshold ∧
    ∀ t v, aget (runEntries S entries).words t = some v → S.countThreshold ≤ v := by
  induction entries with
  | nil => exact fun S _ hinv => ⟨rfl, hinv⟩
  | cons e rest ih =>
    intro S hth hinv
    obtain ⟨k, c⟩ := e
    obtain ⟨hpres, hinv2⟩ := cde_words_ge S k c hth hinv
    obtain ⟨hpres2, hinv3⟩ := ih (createDictionaryEntry S k c none).1
      (by rw [hpres]; exact hth) (by rw [hpres]; exact hinv2)
    rw [hpres] at hpres2 hinv3
    exact ⟨by simpa [runEntries] using hpres2, by simpa [runEntries] using hinv3⟩

/-- C7 (amended): after every sequence of non-staged `CreateDictionaryEntry`
calls every value stored in `words` is at least `countThreshold`; the
additional "`≥ 1` when `countThreshold = 0`" part of the claim is refuted
by `claimC7_counterexample` (a call with `count ≤ 0` at threshold 0
installs count 0). -/
theorem claimC7_amended (mDED pfxLen : Nat) (thresh : Int) (hth : thresh ≤ maxInt64)
    (entries : List (Str × Int)) (t : Str) (v : Int)
    (hv : aget (runEntries (mkSymSpell mDED pfxLen thresh) entries).words t = some v) :
    thresh ≤ v := by
  refine (runEntries_words_ge entries (mkSymSpell mDED pfxLen thresh) hth ?_).2 t v hv
  intro t v h
  simp [mkSymSpell, aget] at h

theorem claimC7_amended_witness :
    aget (runEntries (mkSymSpell 2 7 1) [(wPipe, 5)]).words wPipe = some 5 ∧ (1 : Int) ≤ 5 :=
  ⟨by decide, claimC7_amended 2 7 1 (by decide) [(wPipe, 5)] wPipe 5 (by decide)⟩

/-! ### C6: depth bound for the deletes generator -/

/-- `delWithinB k a b`: `b` is obtainable from `a` by at most `k`
single-character deletions (the specification's notion of a delete variant
of depth `≤ k`). -/
def delWithinB : Nat → Str → Str → Bool
  | 0, a, b => a == b
  | k + 1, a, b => a == b || (List.range a.length).any (fun i => delWithinB k (a.eraseIdx i) b)

theorem delWithinB_refl (k : Nat) (a : Str) : delWithinB k a a = true := by
  cases k <;> simp [delWithinB]

theorem delWithinB_chain (k : Nat) (a w : Str) (i : Nat) (hi : i < a.length)
    (h : delWithinB k (a.eraseIdx i) w = true) : delWithinB (k + 1) a w = true := by
  simp only [delWithinB, Bool.or_eq_true, List.any_eq_true]
  exact Or.inr ⟨i, by simpa using hi, h⟩

theorem delWithinB_erase (k : Nat) (a : Str) (i : Nat) (hi : i < a.length) :
    delWithinB (k + 1) a (a.eraseIdx i) = true :=
  delWithinB_chain k a _ i hi (delWithinB_refl k _)

theorem goEditsFold_spec (mDED : Nat) (recur : Str → Nat → List Str → List Str)
    (word : Str) (ed K : Nat)
    (hdel : ∀ i, i < word.length → delWithinB K word (word.eraseIdx i) = true)
    (hrec : ∀ i, i < word.length → ed < mDED → ∀ s w,
      w ∈ recur (word.eraseIdx i) ed s → w ∈ s ∨ delWithinB K word w = true) :
    ∀ is : List Nat, (∀ i ∈ is, i < word.length) → ∀ (set : List Str) (w : Str),
      w ∈ is.foldl (goEditsStep mDED recur word ed) set →
      w ∈ set ∨ delWithinB K word w = true := by
  intro is
  induction is with
  | nil => intro _ set w hw; exact Or.inl hw
  | cons i is ih =>
    intro his set w hw
    have hi : i < word.length := his i (List.mem_cons_self i is)
    have his' : ∀ j ∈ is, j < word.length := fun j hj => his j (List.mem_cons_of_mem i hj)
    rw [List.foldl_cons] at hw
    rcases ih his' _ w hw with hmem | hreach
    · -- w came from the single step; analyse `goEditsStep`
      unfold goEditsStep at hmem
      by_cases hin : word.eraseIdx i ∈ set
      · rw [if_pos hin] at hmem
        exact Or.inl hmem
      · rw [if_neg hin] at hmem
        by_cases hlt : ed < mDED
        · rw [if_pos hlt] at hmem
          rcases hrec i hi hlt _ w hmem with hmem2 | hreach2
          · rcases List.mem_append.1 hmem2 with h | h
            · exact Or.inl h
            · rcases List.mem_singleton.1 h with rfl
              exact Or.inr (hdel i hi)
          · exact Or.inr hreach2
        · rw [if_neg hlt] at hmem
          rcases List.mem_append.1 hmem with h | h
          · exact Or.inl h
          · rcases List.mem_singleton.1 h with rfl
            exact Or.inr (hdel i hi)
    · exact Or.inr hreach

/-- Everything `Edits` adds is reachable from `word` by at most
`max 1 (mDED − editDistance)` single-character deletions. -/
theorem goEdits_spec (mDED : Nat) : ∀ (fuel : Nat) (word : Str) (ed : Nat)
    (set : List Str) (w : Str), w ∈ goEdits mDED fuel word ed set →
    w ∈ set ∨ delWithinB (max 1 (mDED - ed)) word w = true := by
  intro fuel
  induction fuel with
  | zero => intro word ed set w hw; exact Or.inl hw
  | succ fuel ih =>
    intro word ed set w hw
    unfold goEdits at hw
    by_cases hlen : word.length > 1
    · rw [if_pos hlen] at hw
      obtain ⟨K0, hK0⟩ : ∃ K0, max 1 (mDED - ed) = K0 + 1 :=
        ⟨max 1 (mDED - ed) - 1, by omega⟩
      refine goEditsFold_spec mDED _ word (ed + 1) (max 1 (mDED - ed)) ?_ ?_
        (List.range word.length) (by simp) set w hw
      · intro i hi
        rw [hK0]
        exact delWithinB_erase K0 word i hi
      · intro i hi hlt s w hw
        rcases ih (word.eraseIdx i) (ed + 1) s w hw with hmem | hreach
        · exact Or.inl hmem
        · right
          have h1 : max 1 (mDED - (ed + 1)) = mDED - ed - 1 := by omega
          have h2 : max 1 (mDED - ed) = (mDED - ed - 1) + 1 := by omega
          rw [h1] at hreach
          rw [h2]
          exact delWithinB_chain _ word w i hi hreach
    · rw [if_neg hlen] at hw
      exact Or.inl hw

theorem mem_addU {l : List Str} {x w : Str} (h : w ∈ addU l x) : w ∈ l ∨ w = x := by
  unfold addU at h
  split at h
  · exact Or.inl h
  · rcases List.mem_append.1 h with h | h
    · exact Or.inl h
    · exact Or.inr (List.mem_singleton.1 h)

/-- C6 (amended): every string produced by `EditsPrefix(key)` is the empty
string or is obtained from the prefix-truncated key by at most
`max 1 (maxDictionaryEditDistance)` single-character deletions; the bound
`maxDictionaryEditDistance` itself fails at 0 (`claimC6_counterexample`)
because `Edits` increments the depth before comparing it to the bound. -/
theorem claimC6_amended (mDED pfxLen : Nat) (key : Str) (w : Str)
    (hw : w ∈ editsPrefixFn mDED pfxLen key) :
    w = [] ∨ delWithinB (max 1 mDED)
      (if key.length > pfxLen then key.take pfxLen else key) w = true := by
  unfold editsPrefixFn at hw
  rcases goEdits_spec mDED _ _ _ _ _ hw with hmem | hreach
  · rcases mem_addU hmem with hmem2 | rfl
    · left
      split at hmem2 <;> simp_all
    · right
      exact delWithinB_refl _ _
  · right
    simpa using hreach

theorem claimC6_amended_witness :
    [98] ∈ editsPrefixFn 1 3 wAb ∧
    ([98] = ([] : Str) ∨ delWithinB (max 1 1)
      (if wAb.length > 3 then wAb.take 3 else wAb) [98] = true) :=
  ⟨by decide, claimC6_amended 1 3 wAb [98] (by decide)⟩

/-! ### C8: `Lookup` panics exactly on the misuse guard -/

/-- Termination measure of the `Lookup` worklist: each candidate of length
`n` contributes `(n+1)!`; processing a candidate removes its contribution
and adds at most `n` children of length `n − 1`, which total less than
`(n+1)!`. -/
def lkMeasure (wl : List Str) : Nat := (wl.map (fun c => (c.length + 1).factorial)).sum

theorem lkExpand_fold_spec (cand : Str) : ∀ (is : List Nat) (acc : List Str × List Str),
    (∀ i ∈ is, i < cand.length) →
    (is.foldl
      (fun acc i =>
        let deleteStr := cand.eraseIdx i
        if deleteStr ∈ acc.1 then acc
        else (acc.1 ++ [deleteStr], acc.2 ++ [deleteStr])) acc).2.length ≤
        acc.2.length + is.length ∧
    ∀ c ∈ (is.foldl
      (fun acc i =>
        let deleteStr := cand.eraseIdx i
        if deleteStr ∈ acc.1 then acc
        else (acc.1 ++ [deleteStr], acc.2 ++ [deleteStr])) acc).2,
      c ∈ acc.2 ∨ c.length + 1 = cand.length := by
  intro is
  induction is with
  | nil => exact fun acc _ => ⟨Nat.le_refl _, fun c hc => Or.inl hc⟩
  | cons i is ih =>
    intro acc his
    have hi : i < cand.length := his i (List.mem_cons_self i is)
    have his' : ∀ j ∈ is, j < cand.length := fun j hj => his j (List.mem_cons_of_mem i hj)
    rw [List.foldl_cons]
    set acc' := (let deleteStr := cand.eraseIdx i
      if deleteStr ∈ acc.1 then acc
      else (acc.1 ++ [deleteStr], acc.2 ++ [deleteStr])) with hacc'
    have hlen : acc'.2.length ≤ acc.2.length + 1 ∧
        ∀ c ∈ acc'.2, c ∈ acc.2 ∨ c.length + 1 = cand.length := by
      rw [hacc']
      simp only []
      split
      · exact ⟨Nat.le_succ _, fun c hc => Or.inl hc⟩
      · constructor
        · simp
        · intro c hc
          rcases List.mem_append.1 hc with h | h
          · exact Or.inl h
          · rcases List.mem_singleton.1 h with rfl
            exact Or.inr (List.length_eraseIdx_add_one hi)
    obtain ⟨h1, h2⟩ := ih acc' his'
    constructor
    · refine Nat.le_trans h1 ?_
      have := hlen.1
      simp only [List.length_cons]
      omega
    · intro c hc
      rcases h2 c hc with h | h
      · exact hlen.2 c h
      · exact Or.inr h

theorem lkExpand_spec (cand : Str) (hs1 : List Str) :
    (lkExpand cand hs1).2.length ≤ cand.length ∧
    ∀ c ∈ (lkExpand cand hs1).2, c.length + 1 = cand.length := by
  obtain ⟨h1, h2⟩ := lkExpand_fold_spec cand (List.range cand.length) (hs1, [])
    (fun i hi => List.mem_range.1 hi)
  refine ⟨by simpa using h1, fun c hc => ?_⟩
  rcases h2 c hc with h | h
  · simp at h
  · exact h

theorem lkMeasure_append (a b : List Str) :
    lkMeasure (a ++ b) = lkMeasure a + lkMeasure b := by
  simp [lkMeasure]

theorem lkMeasure_lt (cand : Str) (new : List Str) (hlen : new.length ≤ cand.length)
    (helem : ∀ c ∈ new, c.length + 1 = cand.length) :
    lkMeasure new < (cand.length + 1).factorial := by
  have hsum : ∀ l : List Str, (∀ c ∈ l, c.length + 1 = cand.length) →
      (l.map (fun c => (c.length + 1).factorial)).sum = l.length * cand.length.factorial := by
    intro l
    induction l with
    | nil => simp
    | cons c rest ih =>
      intro hl
      have hc : c.length + 1 = cand.length := hl c (List.mem_cons_self c rest)
      have hr := ih (fun c hc => hl c (List.mem_cons_of_mem _ hc))
      simp only [List.map_cons, List.sum_cons, hc, List.length_cons, hr]
      ring
  have h1 : lkMeasure new = new.length * cand.length.factorial := hsum new helem
  have hfac : (cand.length + 1).factorial = (cand.length + 1) * cand.length.factorial :=
    Nat.factorial_succ _
  have hpos : 0 < cand.length.factorial := Nat.factorial_pos _
  have h2 : new.length * cand.length.factorial < (cand.length + 1) * cand.length.factorial :=
    Nat.mul_lt_mul_of_lt_of_le (by omega) (Nat.le_refl _) hpos
  omega

theorem lkLoop_isSome (S : GoSymSpell) (input : Str) (verbosity : Verbosity)
    (maxEditDistance : Int) (inputPrefixLen : Nat) :
    ∀ (fuel : Nat) (wl : List Str) (st : LkSt), lkMeasure wl < fuel →
      (lkLoop S input verbosity maxEditDistance inputPrefixLen fuel wl st).isSome := by
  intro fuel
  induction fuel with
  | zero => exact fun wl st h => absurd h (Nat.not_lt_zero _)
  | succ fuel ih =>
    intro wl st h
    match wl with
    | [] => simp [lkLoop]
    | candidate :: rest =>
      have hm : lkMeasure (candidate :: rest) =
          (candidate.length + 1).factorial + lkMeasure rest := by
        simp [lkMeasure]
      have hfact : 0 < (candidate.length + 1).factorial := Nat.factorial_pos _
      have hrest : lkMeasure rest < fuel := by omega
      have key0 : lkMeasure (rest ++ ([] : List Str)) < fuel := by
        rw [lkMeasure_append]
        have h0 : lkMeasure ([] : List Str) = 0 := rfl
        omega
      have key : ∀ X : List Str, lkMeasure (rest ++ (lkExpand candidate X).2) < fuel := by
        intro X
        rw [lkMeasure_append]
        have h1 := lkExpand_spec candidate X
        have h2 := lkMeasure_lt candidate _ h1.1 h1.2
        omega
      simp only [lkLoop]
      split
      · split
        · exact ih rest st hrest
        · simp
      · split
        · split
          · exact ih _ _ key0
          · exact ih _ _ (key _)
        · exact ih _ _ key0

/-- C8: `Lookup` aborts exactly when `maxEditDistance >
maxDictionaryEditDistance`: the panic guard is the only `none` of the
embedding, and in particular the worklist loop always terminates within the
supplied fuel (`lkLoop_isSome`), every other path returning a suggestion
list.  Indexing in the tail-check branch is modelled total (`getD`), in
line with the bounds analysis of that branch. -/
theorem claimC8 (S : GoSymSpell) (sortFn : List SuggestItem → List SuggestItem)
    (input : Str) (verbosity : Verbosity) (maxEditDistance : Int) (includeUnknown : Bool) :
    goLookup S sortFn input verbosity maxEditDistance includeUnknown = none ↔
      maxEditDistance > (S.maxDictionaryEditDistance : Int) := by
  by_cases hg : maxEditDistance > (S.maxDictionaryEditDistance : Int)
  · unfold goLookup
    rw [if_pos hg]
    simp [hg]
  · refine iff_of_false ?_ hg
    unfold goLookup
    rw [if_neg hg]
    simp only []
    split
    · simp
    · split
      · simp
      · split
        · simp
        · have hle : goIpl S input ≤ input.length := by
            unfold goIpl; split <;> omega
          have hlen : (input.take (goIpl S input)).length = goIpl S input := by
            rw [List.length_take]; omega
          have hms : lkMeasure [input.take (goIpl S input)] =
              (goIpl S input + 1).factorial := by
            simp [lkMeasure, hlen]
          split
          · rename_i heq
            have hsome := lkLoop_isSome S input verbosity maxEditDistance (goIpl S input)
              ((goIpl S input + 1).factorial + 1) [input.take (goIpl S input)]
              { suggestions := goExact S input,
                maxED2 := maxEditDistance, hs1 := [], hs2 := [input] }
              (by rw [hms]; omega)
            rw [heq] at hsome
            simp at hsome
          · simp

/-! ### Shape analysis of the suggestion-processing step

`lkSugg` always factors through `lkAdmit`: the `continue` paths only mark
visited suggestions, and the admission tail either replaces slot 0 in `Top`
mode or appends one admitted item (optionally clearing first in `Closest`
mode); in the admitting cases the admitted distance is bounded by the
current `maxEditDistance2`. -/

set_option maxHeartbeats 4000000 in
theorem lkSugg_eq_admit (S : GoSymSpell) (input : Str) (verbosity : Verbosity)
    (maxEditDistance : Int) (inputPrefixLen : Nat) (candidate : Str) (st : LkSt)
    (suggestion : Str) :
    ∃ res, lkSugg S input verbosity maxEditDistance inputPrefixLen candidate st suggestion =
      lkAdmit S verbosity suggestion st res := by
  have hid : st = lkAdmit S verbosity suggestion st (none, st.hs2) := rfl
  delta lkSugg
  simp only []
  split
  · exact ⟨_, hid⟩
  · split
    · exact ⟨_, hid⟩
    · split
      · exact ⟨_, hid⟩
      · exact ⟨_, rfl⟩

theorem lkAdmit_shape (S : GoSymSpell) (verbosity : Verbosity) (suggestion : Str)
    (st : LkSt) (res : Option Int × List Str) :
    lkAdmit S verbosity suggestion st res = { st with hs2 := res.2 } ∨
    (∃ d, d ≤ st.maxED2 ∧ verbosity = .top ∧ st.suggestions ≠ [] ∧
      lkAdmit S verbosity suggestion st res =
        { st with
          hs2 := res.2
          maxED2 := d
          suggestions := st.suggestions.set 0
            { term := suggestion, distance := d, count := agetD S.words suggestion 0 } }) ∨
    (∃ d, d ≤ st.maxED2 ∧ ¬ (st.suggestions ≠ [] ∧ verbosity = .top) ∧
      lkAdmit S verbosity suggestion st res =
        { st with
          hs2 := res.2
          maxED2 := if verbosity ≠ .all then d else st.maxED2
          suggestions := (if st.suggestions ≠ [] ∧ verbosity = .closest ∧ d < st.maxED2
            then [] else st.suggestions) ++
            [{ term := suggestion, distance := d, count := agetD S.words suggestion 0 }] }) := by
  obtain ⟨o, h2⟩ := res
  cases o with
  | none => exact Or.inl rfl
  | some d =>
    simp only [lkAdmit]
    split
    · rename_i hle
      split
      · rename_i htop
        split
        · exact Or.inr (Or.inl ⟨d, hle, htop.2, htop.1, rfl⟩)
        · exact Or.inl rfl
      · rename_i hnottop
        exact Or.inr (Or.inr ⟨d, hle, hnottop, rfl⟩)
    · rename_i hgt
      exact Or.inl rfl

theorem foldl_pres {α β : Type} (P : α → Prop) (f : α → β → α)
    (h : ∀ a b, P a → P (f a b)) : ∀ (l : List β) (a : α), P a → P (l.foldl f a) := by
  intro l
  induction l with
  | nil => exact fun a ha => ha
  | cons b rest ih => exact fun a ha => ih (f a b) (h a b ha)

/-- Any state predicate that ignores the two visited sets and is preserved
by the suggestion step is an invariant of the whole `Lookup` worklist
loop. -/
theorem lkLoop_pres (S : GoSymSpell) (input : Str) (verbosity : Verbosity)
    (maxEditDistance : Int) (inputPrefixLen : Nat) (P : LkSt → Prop)
    (hstep : ∀ candidate st suggestion, P st →
      P (lkSugg S input verbosity maxEditDistance inputPrefixLen candidate st suggestion))
    (hhs1 : ∀ st l, P st → P { st with hs1 := l }) :
    ∀ (fuel : Nat) (wl : List Str) (st st' : LkSt), P st →
      lkLoop S input verbosity maxEditDistance inputPrefixLen fuel wl st = some st' →
      P st' := by
  intro fuel
  induction fuel with
  | zero => intro wl st st' _ heq; simp [lkLoop] at heq
  | succ fuel ih =>
    intro wl st st' hP heq
    match wl with
    | [] =>
      simp only [lkLoop, Option.some.injEq] at heq
      exact heq ▸ hP
    | candidate :: rest =>
      simp only [lkLoop] at heq
      split at heq
      · split at heq
        · exact ih rest st st' hP heq
        · cases heq
          exact hP
      · cases haget : aget S.deletes (getStringHash S.compactMask candidate) with
        | none =>
          rw [haget] at heq
          exact ih _ _ st' (hhs1 _ _ hP) heq
        | some bucket =>
          rw [haget] at heq
          have hP2 : P (bucket.foldl
              (lkSugg S input verbosity maxEditDistance inputPrefixLen candidate) st) :=
            foldl_pres P _ (fun a b ha => hstep candidate a b ha) bucket st hP
          exact ih _ _ st' (hhs1 _ _ hP2) heq

/-- Dissection of a successful `Lookup`: the result is the wrap of either an
early-exit list (empty or the exact match) or of the sorted deduplicated
loop result started from the exact match. -/
theorem goLookup_cases (S : GoSymSpell) (sortFn : List SuggestItem → List SuggestItem)
    (input : Str) (verbosity : Verbosity) (maxEditDistance : Int) (includeUnknown : Bool)
    (r : List SuggestItem)
    (h : goLookup S sortFn input verbosity maxEditDistance includeUnknown = some r) :
    (∃ sgs0, (sgs0 = [] ∨ sgs0 = goExact S input) ∧
      r = lkWrap input maxEditDistance includeUnknown sgs0) ∨
    (∃ stF, ¬ ((aget S.words input).isSome ∧ verbosity ≠ .all) ∧ maxEditDistance ≠ 0 ∧
      lkLoop S input verbosity maxEditDistance (goIpl S input)
        ((goIpl S input + 1).factorial + 1) [input.take (goIpl S input)]
        { suggestions := goExact S input, maxED2 := maxEditDistance,
          hs1 := [], hs2 := [input] } = some stF ∧
      r = lkWrap input maxEditDistance includeUnknown (lkSortDedup sortFn stF.suggestions)) := by
  unfold goLookup at h
  by_cases c0 : maxEditDistance > (S.maxDictionaryEditDistance : Int)
  · rw [if_pos c0] at h
    cases h
  · rw [if_neg c0] at h
    simp only [] at h
    by_cases c1 : (input.length : Int) - maxEditDistance > (S.maxDictionaryWordLength : Int)
    · rw [if_pos c1] at h
      cases h
      exact Or.inl ⟨[], Or.inl rfl, rfl⟩
    · rw [if_neg c1] at h
      by_cases c2 : (aget S.words input).isSome ∧ verbosity ≠ Verbosity.all
      · rw [if_pos c2] at h
        cases h
        exact Or.inl ⟨goExact S input, Or.inr rfl, rfl⟩
      · rw [if_neg c2] at h
        by_cases c3 : maxEditDistance = 0
        · rw [if_pos c3] at h
          cases h
          exact Or.inl ⟨goExact S input, Or.inr rfl, rfl⟩
        · rw [if_neg c3] at h
          cases hT : lkLoop S input verbosity maxEditDistance (goIpl S input)
              ((goIpl S input + 1).factorial + 1) [input.take (goIpl S input)]
              { suggestions := goExact S input, maxED2 := maxEditDistance,
                hs1 := [], hs2 := [input] } with
          | none =>
            rw [hT] at h
            cases h
          | some stF =>
            rw [hT] at h
            cases h
            exact Or.inr ⟨stF, c2, c3, rfl, rfl⟩

/-! ### C5 (amended): sortedness and uniqueness of `Lookup` results -/

theorem dedupGo_sublist : ∀ (l : List SuggestItem) (seen : List Str),
    List.Sublist (dedupGo l seen) l := by
  intro l
  induction l with
  | nil => intro seen; simp [dedupGo]
  | cons s rest ih =>
    intro seen
    unfold dedupGo
    split
    · exact (ih seen).trans (List.sublist_cons_self s rest)
    · exact (ih (seen ++ [s.term])).cons₂ s

theorem dedupGo_nodup : ∀ (l : List SuggestItem) (seen : List Str),
    ((dedupGo l seen).map (fun i => i.term)).Nodup ∧
    ∀ x ∈ dedupGo l seen, x.term ∉ seen := by
  intro l
  induction l with
  | nil => intro seen; simp [dedupGo]
  | cons s rest ih =>
    intro seen
    unfold dedupGo
    split
    · exact ih seen
    · rename_i hnot
      obtain ⟨ih1, ih2⟩ := ih (seen ++ [s.term])
      constructor
      · simp only [List.map_cons, List.nodup_cons]
        refine ⟨?_, ih1⟩
        intro hmem
        rcases List.mem_map.1 hmem with ⟨x, hx, hxt⟩
        have := ih2 x hx
        simp [hxt] at this
      · intro x hx
        rcases List.mem_cons.1 hx with rfl | hx
        · exact hnot
        · intro hmem
          exact ih2 x hx (List.mem_append_left _ hmem)

theorem small_sorted_nodup {l : List SuggestItem} (h : l.length ≤ 1) :
    l.Sorted (fun a b => suggestLess b a = false) ∧
    (l.map (fun i => i.term)).Nodup := by
  match l with
  | [] => simp
  | [x] => simp
  | x :: y :: rest => simp at h

theorem goExact_small (S : GoSymSpell) (input : Str) : (goExact S input).length ≤ 1 := by
  unfold goExact
  cases aget S.words input <;> simp

theorem lkSortDedup_ok (sortFn : List SuggestItem → List SuggestItem)
    (hsort : IsGoSort sortFn) (l : List SuggestItem) :
    (lkSortDedup sortFn l).Sorted (fun a b => suggestLess b a = false) ∧
    ((lkSortDedup sortFn l).map (fun i => i.term)).Nodup := by
  unfold lkSortDedup
  split
  · exact ⟨List.Pairwise.sublist (dedupGo_sublist _ _) (hsort l).2,
      (dedupGo_nodup (sortFn l) []).1⟩
  · rename_i hlen
    exact small_sorted_nodup (by omega)

theorem lkWrap_ok (input : Str) (maxEditDistance : Int) (includeUnknown : Bool)
    (l : List SuggestItem)
    (hl : l.Sorted (fun a b => suggestLess b a = false) ∧
      (l.map (fun i => i.term)).Nodup) :
    (lkWrap input maxEditDistance includeUnknown l).Sorted
      (fun a b => suggestLess b a = false) ∧
    ((lkWrap input maxEditDistance includeUnknown l).map (fun i => i.term)).Nodup := by
  unfold lkWrap
  split
  · simp
  · exact hl

/-- C5 (amended): every `Lookup` result — under any sorting routine
satisfying the `sort.Sort` contract — is sorted by (distance ascending,
count descending: see `suggestLess_false_iff`) and contains no two items
with the same term.  The stability conjunct of the claim is refuted by
`claimC5_counterexample`. -/
theorem claimC5_amended (S : GoSymSpell) (sortFn : List SuggestItem → List SuggestItem)
    (input : Str) (verbosity : Verbosity) (maxEditDistance : Int) (includeUnknown : Bool)
    (r : List SuggestItem) (hsort : IsGoSort sortFn)
    (h : goLookup S sortFn input verbosity maxEditDistance includeUnknown = some r) :
    r.Sorted (fun a b => suggestLess b a = false) ∧
    (r.map (fun i => i.term)).Nodup := by
  rcases goLookup_cases S sortFn input verbosity maxEditDistance includeUnknown r h with
    ⟨sgs0, hshape, rfl⟩ | ⟨stF, hc2, hc3, hloop, rfl⟩
  · refine lkWrap_ok _ _ _ _ ?_
    rcases hshape with rfl | rfl
    · exact small_sorted_nodup (by simp)
    · exact small_sorted_nodup (goExact_small S input)
  · exact lkWrap_ok _ _ _ _ (lkSortDedup_ok sortFn hsort stF.suggestions)

theorem claimC5_amended_witness :
    ([{ term := wAb, distance := 1, count := 5 },
      { term := wAc, distance := 1, count := 5 }] : List SuggestItem).Sorted
        (fun a b => suggestLess b a = false) ∧
    (([{ term := wAb, distance := 1, count := 5 },
       { term := wAc, distance := 1, count := 5 }] : List SuggestItem).map
        (fun i => i.term)).Nodup :=
  claimC5_amended fixTie goSortSmall wAa .all 1 false _ isGoSort_goSortSmall (by decide)

/-! ### C4 (amended): `Top` cardinality and `Closest` uniformity -/

theorem lkSugg_pres_top (S : GoSymSpell) (input : Str) (maxEditDistance : Int)
    (inputPrefixLen : Nat) (candidate : Str) (st : LkSt) (suggestion : Str)
    (hP : st.suggestions.length ≤ 1) :
    (lkSugg S input .top maxEditDistance inputPrefixLen candidate st suggestion).suggestions.length
      ≤ 1 := by
  obtain ⟨res, heq⟩ := lkSugg_eq_admit S input .top maxEditDistance inputPrefixLen
    candidate st suggestion
  rw [heq]
  rcases lkAdmit_shape S .top suggestion st res with h1 | ⟨d, _, _, hne, h⟩ | ⟨d, _, hnot, h⟩
  · rw [h1]
    exact hP
  · rw [h]
    simpa using hP
  · rw [h]
    have hemp : st.suggestions = [] := by
      by_contra hcon
      exact hnot ⟨hcon, rfl⟩
    simp [hemp]

theorem lkSugg_pres_closest (S : GoSymSpell) (input : Str) (maxEditDistance : Int)
    (inputPrefixLen : Nat) (candidate : Str) (st : LkSt) (suggestion : Str)
    (hP : ∀ x ∈ st.suggestions, x.distance = st.maxED2) :
    ∀ x ∈ (lkSugg S input .closest maxEditDistance inputPrefixLen candidate st
        suggestion).suggestions,
      x.distance = (lkSugg S input .closest maxEditDistance inputPrefixLen candidate st
        suggestion).maxED2 := by
  obtain ⟨res, heq⟩ := lkSugg_eq_admit S input .closest maxEditDistance inputPrefixLen
    candidate st suggestion
  rw [heq]
  rcases lkAdmit_shape S .closest suggestion st res with h1 | ⟨d, _, hne, _, h⟩ |
    ⟨d, hd, hnot, h⟩
  · rw [h1]
    exact hP
  · cases hne
  · rw [h]
    intro x hx
    rcases List.mem_append.1 hx with hx | hx
    · by_cases hemp : st.suggestions = []
      · rw [if_neg (by simp [hemp])] at hx
        rw [hemp] at hx
        simp at hx
      · by_cases hlt : d < st.maxED2
        · rw [if_pos ⟨hemp, rfl, hlt⟩] at hx
          simp at hx
        · rw [if_neg (by simp [hlt])] at hx
          have hx' := hP x hx
          have hdeq : d = st.maxED2 := by omega
          simp [hx', hdeq]
    · rcases List.mem_singleton.1 hx with rfl
      simp

/-- `lkWrap` preserves "at most one suggestion". -/
theorem lkWrap_small (input : Str) (maxEditDistance : Int) (includeUnknown : Bool)
    (l : List SuggestItem) (hl : l.length ≤ 1) :
    (lkWrap input maxEditDistance includeUnknown l).length ≤ 1 := by
  unfold lkWrap
  split
  · simp
  · exact hl

/-- A list of at most one suggestion trivially has all-equal distances. -/
theorem small_alleq {l : List SuggestItem} (h : l.length ≤ 1) :
    ∀ x ∈ l, ∀ y ∈ l, x.distance = y.distance := by
  match l with
  | [] => simp
  | [x] => simp
  | x :: y :: rest => simp at h

/-- On a list of at most one element the sort-and-dedup tail is the
identity. -/
theorem lkSortDedup_small (sortFn : List SuggestItem → List SuggestItem)
    (l : List SuggestItem) (h : l.length ≤ 1) : lkSortDedup sortFn l = l := by
  unfold lkSortDedup
  rw [if_neg (by omega)]

/-- Under the `sort.Sort` contract, sort-and-dedup only keeps elements of
the input list. -/
theorem lkSortDedup_subset (sortFn : List SuggestItem → List SuggestItem)
    (hsort : IsGoSort sortFn) (l : List SuggestItem) :
    ∀ x ∈ lkSortDedup sortFn l, x ∈ l := by
  intro x hx
  unfold lkSortDedup at hx
  split at hx
  · exact ((hsort l).1).mem_iff.1 ((dedupGo_sublist (sortFn l) []).subset hx)
  · exact hx

/-- `lkWrap` preserves "all distances equal": the synthetic unknown-word
item is only added to an empty list. -/
theorem lkWrap_alleq (input : Str) (maxEditDistance : Int) (includeUnknown : Bool)
    (l : List SuggestItem)
    (h : ∀ x ∈ l, ∀ y ∈ l, x.distance = y.distance) :
    ∀ x ∈ lkWrap input maxEditDistance includeUnknown l,
      ∀ y ∈ lkWrap input maxEditDistance includeUnknown l, x.distance = y.distance := by
  unfold lkWrap
  split
  · intro x hx y hy
    simp only [List.mem_singleton] at hx hy
    rw [hx, hy]
  · exact h

/-- C4 (amended): under any sorting routine satisfying the `sort.Sort`
contract, `Lookup` with verbosity `Top` returns at most one suggestion,
and `Lookup` with verbosity `Closest` returns only suggestions of one
common edit distance.  (The `All`-completeness half of the claim is
refuted by `claimC4_counterexample`: the broken distance routine can
reject genuinely close terms.) -/
theorem claimC4_amended (S : GoSymSpell) (sortFn : List SuggestItem → List SuggestItem)
    (input : Str) (maxEditDistance : Int) (includeUnknown : Bool)
    (hsort : IsGoSort sortFn) :
    (∀ r, goLookup S sortFn input .top maxEditDistance includeUnknown = some r →
      r.length ≤ 1) ∧
    (∀ r, goLookup S sortFn input .closest maxEditDistance includeUnknown = some r →
      ∀ x ∈ r, ∀ y ∈ r, x.distance = y.distance) := by
  constructor
  · intro r h
    rcases goLookup_cases S sortFn input .top maxEditDistance includeUnknown r h with
      ⟨sgs0, hsgs0, hr⟩ | ⟨stF, _, _, hloop, hr⟩
    · subst hr
      rcases hsgs0 with rfl | rfl
      · exact lkWrap_small _ _ _ _ (by simp)
      · exact lkWrap_small _ _ _ _ (goExact_small S input)
    · subst hr
      have hstF : stF.suggestions.length ≤ 1 := by
        refine lkLoop_pres S input .top maxEditDistance (goIpl S input)
          (fun st => st.suggestions.length ≤ 1)
          (fun c st sg hP => lkSugg_pres_top S input maxEditDistance (goIpl S input) c st sg hP)
          (fun st l hP => hP) _ _ _ _ ?_ hloop
        exact goExact_small S input
      rw [lkSortDedup_small sortFn _ hstF]
      exact lkWrap_small _ _ _ _ hstF
  · intro r h
    rcases goLookup_cases S sortFn input .closest maxEditDistance includeUnknown r h with
      ⟨sgs0, hsgs0, hr⟩ | ⟨stF, hnx, _, hloop, hr⟩
    · subst hr
      apply lkWrap_alleq
      rcases hsgs0 with rfl | rfl
      · simp
      · exact small_alleq (goExact_small S input)
    · subst hr
      have hnone' : aget S.words input = none := by
        by_contra hne
        exact hnx ⟨Option.ne_none_iff_isSome.1 hne, by decide⟩
      have hstF : ∀ x ∈ stF.suggestions, x.distance = stF.maxED2 := by
        refine lkLoop_pres S input .closest maxEditDistance (goIpl S input)
          (fun st => ∀ x ∈ st.suggestions, x.distance = st.maxED2)
          (fun c st sg hP =>
            lkSugg_pres_closest S input maxEditDistance (goIpl S input) c st sg hP)
          (fun st l hP => hP) _ _ _ _ ?_ hloop
        intro x hx
        unfold goExact at hx
        rw [hnone'] at hx
        simp at hx
      apply lkWrap_alleq
      intro x hx y hy
      have hx' := hstF x (lkSortDedup_subset sortFn hsort _ x hx)
      have hy' := hstF y (lkSortDedup_subset sortFn hsort _ y hy)
      rw [hx', hy']

/-- Witness for `claimC4_amended` on the tie fixture: the `Top` lookup
result has at most one item and the `Closest` lookup result has all-equal
distances. -/
theorem claimC4_amended_witness :
    ([({ term := wAb, distance := 1, count := 5 } : SuggestItem)].length ≤ 1) ∧
    (∀ x ∈ [({ term := wAb, distance := 1, count := 5 } : SuggestItem),
            { term := wAc, distance := 1, count := 5 }],
       ∀ y ∈ [({ term := wAb, distance := 1, count := 5 } : SuggestItem),
            { term := wAc, distance := 1, count := 5 }], x.distance = y.distance) :=
  ⟨(claimC4_amended fixTie goSortSmall wAa 1 false isGoSort_goSortSmall).1 _ (by decide),
   (claimC4_amended fixTie goSortSmall wAa 1 false isGoSort_goSortSmall).2 _ (by decide)⟩

/-! ### C10: the deletes-bucket / words-key invariant and the count field -/

/-- `aset` preserves key-presence. -/
theorem aget_aset_isSome {α β : Type} [DecidableEq α] (m : List (α × β)) (k : α) (v : β)
    (t : α) (h : (aget m t).isSome) : (aget (aset m k v) t).isSome := by
  rw [aget_aset]
  split
  · rfl
  · exact h

/-- The deletes-update fold of `insertWord` only ever inserts `key` into
buckets, so any property of `key` that holds of all old bucket members
holds of all new bucket members. -/
theorem delFold_inv (P : Str → Prop) (compactMask : Nat) (key : Str) (hkey : P key) :
    ∀ (edits : List Str) (m : List (Nat × List Str)),
      (∀ h bucket, aget m h = some bucket → ∀ t ∈ bucket, P t) →
      ∀ h bucket,
        aget (edits.foldl (fun m d =>
          aset m (getStringHash compactMask d)
            (if key ∈ (aget m (getStringHash compactMask d)).getD []
             then (aget m (getStringHash compactMask d)).getD []
             else (aget m (getStringHash compactMask d)).getD [] ++ [key])) m) h
          = some bucket →
        ∀ t ∈ bucket, P t := by
  intro edits
  induction edits with
  | nil => intro m hm; exact hm
  | cons d rest ih =>
    intro m hm
    apply ih
    intro h bucket hb t ht
    rw [aget_aset] at hb
    by_cases hH : getStringHash compactMask d = h
    · rw [if_pos hH] at hb
      rcases Option.some.injEq _ _ ▸ hb with rfl
      have hb0 : t ∈ (aget m (getStringHash compactMask d)).getD [] ∨ t = key := by
        by_cases hk : key ∈ (aget m (getStringHash compactMask d)).getD []
        · rw [if_pos hk] at ht
          exact Or.inl ht
        · rw [if_neg hk] at ht
          rcases List.mem_append.1 ht with ht | ht
          · exact Or.inl ht
          · exact Or.inr (List.mem_singleton.1 ht)
      rcases hb0 with hb0 | rfl
      · cases hget : aget m (getStringHash compactMask d) with
        | none => rw [hget] at hb0; simp at hb0
        | some b0 =>
          rw [hget] at hb0
          exact hm _ b0 hget t hb0
      · exact hkey
    · rw [if_neg hH] at hb
      exact hm h bucket hb t ht

/-- The deletes map after a non-staged `insertWord` is the edit fold of
`delFold_inv`'s shape over the old deletes. -/
theorem insertWord_del_eq (S : GoSymSpell) (key : Str) (count : Int) :
    (insertWord S key count none).1.deletes =
      (editsPrefixFn S.maxDictionaryEditDistance S.prefixLength key).foldl
        (fun m d =>
          aset m (getStringHash S.compactMask d)
            (if key ∈ (aget m (getStringHash S.compactMask d)).getD []
             then (aget m (getStringHash S.compactMask d)).getD []
             else (aget m (getStringHash S.compactMask d)).getD [] ++ [key]))
        S.deletes := by
  unfold insertWord
  simp only []
  split <;> rfl

/-- A non-staged `insertWord` preserves the invariant that all bucket
members are keys of `words`. -/
theorem insertWord_delinv (S : GoSymSpell) (key : Str) (count : Int)
    (hinv : ∀ h bucket, aget S.deletes h = some bucket →
      ∀ t ∈ bucket, (aget S.words t).isSome) :
    ∀ h bucket, aget (insertWord S key count none).1.deletes h = some bucket →
      ∀ t ∈ bucket, (aget (insertWord S key count none).1.words t).isSome := by
  intro h bucket hb t ht
  rw [insertWord_words]
  rw [insertWord_del_eq] at hb
  refine delFold_inv (fun t => (aget (aset S.words key count) t).isSome) S.compactMask key
    ?_ _ _ ?_ h bucket hb t ht
  · show (aget (aset S.words key count) key).isSome
    rw [aget_aset, if_pos rfl]
    rfl
  · intro h' b' hb' t' ht'
    exact aget_aset_isSome _ _ _ _ (hinv h' b' hb' t' ht')


/-- A non-staged `CreateDictionaryEntry` preserves the invariant that all
deletes-bucket members are keys of `words`. -/
theorem cde_delinv (S : GoSymSpell) (key : Str) (count : Int)
    (hinv : ∀ h bucket, aget S.deletes h = some bucket →
      ∀ t ∈ bucket, (aget S.words t).isSome) :
    ∀ h bucket, aget (createDictionaryEntry S key count none).1.deletes h = some bucket →
      ∀ t ∈ bucket, (aget (createDictionaryEntry S key count none).1.words t).isSome := by
  unfold createDictionaryEntry
  by_cases c0 : count ≤ 0 ∧ S.countThreshold > 0
  · rw [if_pos c0]
    exact hinv
  · rw [if_neg c0]
    simp only []
    by_cases c1 : S.countThreshold > 1
    · rw [if_pos c1]
      cases hbt : aget S.belowThresholdWords key with
      | some countPrevious =>
        simp only []
        by_cases hge : satAdd countPrevious (if count ≤ 0 then 0 else count) ≥ S.countThreshold
        · rw [if_pos hge]
          exact insertWord_delinv _ key _ hinv
        · rw [if_neg hge]
          exact hinv
      | none =>
        simp only []
        cases hw : aget S.words key with
        | some countPrevious =>
          intro h bucket hb t ht
          exact aget_aset_isSome _ _ _ _ (hinv h bucket hb t ht)
        | none =>
          by_cases hlt : (if count ≤ 0 then 0 else count) < S.countThreshold
          · rw [if_pos hlt]
            exact hinv
          · rw [if_neg hlt]
            exact insertWord_delinv _ key _ hinv
    · rw [if_neg c1]
      cases hw : aget S.words key with
      | some countPrevious =>
        intro h bucket hb t ht
        exact aget_aset_isSome _ _ _ _ (hinv h bucket hb t ht)
      | none =>
        by_cases hlt : (if count ≤ 0 then 0 else count) < S.countThreshold
        · rw [if_pos hlt]
          exact hinv
        · rw [if_neg hlt]
          exact insertWord_delinv _ key _ hinv

/-- The bucket/words invariant holds after any non-staged build
sequence. -/
theorem runEntries_delinv : ∀ (entries : List (Str × Int)) (S : GoSymSpell),
    (∀ h bucket, aget S.deletes h = some bucket →
      ∀ t ∈ bucket, (aget S.words t).isSome) →
    ∀ h bucket, aget (runEntries S entries).deletes h = some bucket →
      ∀ t ∈ bucket, (aget (runEntries S entries).words t).isSome := by
  intro entries
  induction entries with
  | nil => intro S h; exact h
  | cons e rest ih =>
    intro S hS
    obtain ⟨k, c⟩ := e
    exact ih _ (cde_delinv S k c hS)

/-- The exact-match head item carries the live `words` count of its
term. -/
theorem goExact_count (S : GoSymSpell) (input : Str) :
    ∀ x ∈ goExact S input, x.count = agetD S.words x.term 0 := by
  unfold goExact
  cases hg : aget S.words input with
  | none => simp
  | some c =>
    intro x hx
    rcases List.mem_singleton.1 hx with rfl
    simp [agetD, hg]

/-- Membership in `lkWrap`: an original item or the synthetic unknown-word
item. -/
theorem lkWrap_mem (input : Str) (maxEditDistance : Int) (includeUnknown : Bool)
    (l : List SuggestItem) (x : SuggestItem)
    (hx : x ∈ lkWrap input maxEditDistance includeUnknown l) :
    x ∈ l ∨ x = { term := input, distance := maxEditDistance + 1, count := 0 } := by
  unfold lkWrap at hx
  split at hx
  · exact Or.inr (List.mem_singleton.1 hx)
  · exact Or.inl hx

/-- The suggestion step only admits items whose `count` field is the live
`words` frequency of their term (the step reads `s.words[suggestion]` at
admission time). -/
theorem lkSugg_pres_count (S : GoSymSpell) (input : Str) (verbosity : Verbosity)
    (maxEditDistance : Int) (inputPrefixLen : Nat) (candidate : Str) (st : LkSt)
    (suggestion : Str)
    (hP : ∀ x ∈ st.suggestions, x.count = agetD S.words x.term 0) :
    ∀ x ∈ (lkSugg S input verbosity maxEditDistance inputPrefixLen candidate st
        suggestion).suggestions, x.count = agetD S.words x.term 0 := by
  obtain ⟨res, heq⟩ := lkSugg_eq_admit S input verbosity maxEditDistance inputPrefixLen
    candidate st suggestion
  rw [heq]
  rcases lkAdmit_shape S verbosity suggestion st res with h1 | ⟨d, _, _, _, h⟩ | ⟨d, _, _, h⟩
  · rw [h1]
    exact hP
  · rw [h]
    intro x hx
    rcases List.mem_or_eq_of_mem_set hx with hx | rfl
    · exact hP x hx
    · rfl
  · rw [h]
    intro x hx
    rcases List.mem_append.1 hx with hx | hx
    · have hx' : x ∈ st.suggestions := by
        by_cases hc : st.suggestions ≠ [] ∧ verbosity = .closest ∧ d < st.maxED2
        · rw [if_pos hc] at hx
          simp at hx
        · rw [if_neg hc] at hx
          exact hx
      exact hP x hx'
    · rcases List.mem_singleton.1 hx with rfl
      rfl

/-- Every `Lookup` result item within the requested edit distance carries
the live `words` frequency of its term. -/
theorem goLookup_count (S : GoSymSpell) (sortFn : List SuggestItem → List SuggestItem)
    (hsort : IsGoSort sortFn) (input : Str) (verbosity : Verbosity)
    (maxEditDistance : Int) (includeUnknown : Bool) (r : List SuggestItem)
    (h : goLookup S sortFn input verbosity maxEditDistance includeUnknown = some r) :
    ∀ x ∈ r, x.distance ≤ maxEditDistance → x.count = agetD S.words x.term 0 := by
  intro x hx hd
  rcases goLookup_cases S sortFn input verbosity maxEditDistance includeUnknown r h with
    ⟨sgs0, hsgs0, hr⟩ | ⟨stF, _, _, hloop, hr⟩
  · subst hr
    rcases lkWrap_mem _ _ _ _ x hx with hx | rfl
    · rcases hsgs0 with rfl | rfl
      · simp at hx
      · exact goExact_count S input x hx
    · have hd' : maxEditDistance + 1 ≤ maxEditDistance := hd
      omega
  · subst hr
    have hstF : ∀ y ∈ stF.suggestions, y.count = agetD S.words y.term 0 := by
      refine lkLoop_pres S input verbosity maxEditDistance (goIpl S input)
        (fun st => ∀ y ∈ st.suggestions, y.count = agetD S.words y.term 0)
        (fun c st sg hP =>
          lkSugg_pres_count S input verbosity maxEditDistance (goIpl S input) c st sg hP)
        (fun st l hP => hP) _ _ _ _ ?_ hloop
      exact goExact_count S input
    rcases lkWrap_mem _ _ _ _ x hx with hx | rfl
    · exact hstF x (lkSortDedup_subset sortFn hsort _ x hx)
    · have hd' : maxEditDistance + 1 ≤ maxEditDistance := hd
      omega

/-- C10: after every sequence of non-staged `CreateDictionaryEntry` calls,
every term in every bucket of the deletes map is a key of the words map;
and every `Lookup` result item within the requested edit distance (i.e.
every item admitted from a delete bucket or the exact match, excluding
only the synthetic includeUnknown item at distance `maxEditDistance + 1`)
carries the live `words` frequency of its term. -/
theorem claimC10 (entries : List (Str × Int)) (mDED pfxLen : Nat) (thresh : Int)
    (sortFn : List SuggestItem → List SuggestItem) (hsort : IsGoSort sortFn)
    (input : Str) (verbosity : Verbosity) (maxEditDistance : Int) (includeUnknown : Bool) :
    (∀ h bucket,
        aget (runEntries (mkSymSpell mDED pfxLen thresh) entries).deletes h = some bucket →
        ∀ t ∈ bucket,
          (aget (runEntries (mkSymSpell mDED pfxLen thresh) entries).words t).isSome) ∧
    (∀ r, goLookup (runEntries (mkSymSpell mDED pfxLen thresh) entries) sortFn input
        verbosity maxEditDistance includeUnknown = some r →
      ∀ x ∈ r, x.distance ≤ maxEditDistance →
        x.count = agetD (runEntries (mkSymSpell mDED pfxLen thresh) entries).words x.term 0) := by
  constructor
  · refine runEntries_delinv entries (mkSymSpell mDED pfxLen thresh) ?_
    intro h bucket hb
    simp [mkSymSpell, aget] at hb
  · intro r h
    exact goLookup_count _ sortFn hsort input verbosity maxEditDistance includeUnknown r h

/-- Witness for `claimC10` on the shared-prefix test dictionary: the
bucket of hash 21028263 holds both words, "pipe" is a key of `words`, and
the `Lookup` result item ("pips", 0, 10) carries the live count of
"pips". -/
theorem claimC10_witness :
    (aget (runEntries (mkSymSpell 1 3 1) [(wPipe, 5), (wPips, 10)]).words wPipe).isSome ∧
    ({ term := wPips, distance := 0, count := 10 } : SuggestItem).count =
      agetD (runEntries (mkSymSpell 1 3 1) [(wPipe, 5), (wPips, 10)]).words
        ({ term := wPips, distance := 0, count := 10 } : SuggestItem).term 0 :=
  ⟨(claimC10 [(wPipe, 5), (wPips, 10)] 1 3 1 goSortSmall isGoSort_goSortSmall wPip .all 1
      false).1 21028263 [wPipe, wPips] (by decide) wPipe (by decide),
   (claimC10 [(wPipe, 5), (wPips, 10)] 1 3 1 goSortSmall isGoSort_goSortSmall wPip .all 1
      false).2 [{ term := wPips, distance := 0, count := 10 },
        { term := wPipe, distance := 0, count := 5 }] (by decide)
      { term := wPips, distance := 0, count := 10 } (by decide) (by decide)⟩

/-! ### C9: `LookupCompound` always returns a one-item list -/

/-- Whenever the panic guard passes, `Lookup` returns a list (the positive
restatement of the loop-termination argument of `lkLoop_isSome`). -/
theorem goLookup_isSome (S : GoSymSpell) (sortFn : List SuggestItem → List SuggestItem)
    (input : Str) (verbosity : Verbosity) (maxEditDistance : Int) (includeUnknown : Bool)
    (hg : maxEditDistance ≤ (S.maxDictionaryEditDistance : Int)) :
    (goLookup S sortFn input verbosity maxEditDistance includeUnknown).isSome := by
  unfold goLookup
  rw [if_neg (by omega)]
  simp only []
  split
  · simp
  · split
    · simp
    · split
      · simp
      · have hle : goIpl S input ≤ input.length := by
          unfold goIpl
          split <;> omega
        have hlen : (input.take (goIpl S input)).length = goIpl S input := by
          rw [List.length_take]
          omega
        have hms : lkMeasure [input.take (goIpl S input)] =
            (goIpl S input + 1).factorial := by
          simp [lkMeasure, hlen]
        split
        · rename_i heq
          have hsome := lkLoop_isSome S input verbosity maxEditDistance (goIpl S input)
            ((goIpl S input + 1).factorial + 1) [input.take (goIpl S input)]
            { suggestions := goExact S input,
              maxED2 := maxEditDistance, hs1 := [], hs2 := [input] }
            (by rw [hms]; omega)
          rw [heq] at hsome
          simp at hsome
        · simp

/-- The split-position loop of `LookupCompound` cannot fail when the panic
guard of the inner `Lookup` calls holds. -/
theorem lcSplit_isSome (S : GoSymSpell) (sortFn : List SuggestItem → List SuggestItem)
    (fops : FloatOps) (editDistanceMax : Int) (tok : Str)
    (singleSuggestions : List SuggestItem)
    (hg : editDistanceMax ≤ (S.maxDictionaryEditDistance : Int)) :
    ∀ (js : List Nat) (best : Option SuggestItem),
      (lcSplit S sortFn fops editDistanceMax tok singleSuggestions js best).isSome := by
  intro js
  induction js with
  | nil => intro best; simp [lcSplit]
  | cons j rest ih =>
    intro best
    unfold lcSplit
    obtain ⟨s1, hs1⟩ := Option.isSome_iff_exists.1
      (goLookup_isSome S sortFn (tok.take j) .top editDistanceMax false hg)
    rw [hs1]
    simp only [Option.some_bind]
    split
    · exact ih best
    · obtain ⟨s2, hs2⟩ := Option.isSome_iff_exists.1
        (goLookup_isSome S sortFn (tok.drop j) .top editDistanceMax false hg)
      rw [hs2]
      simp only [Option.some_bind]
      repeat' split
      all_goals exact ih _

/-- The per-token walk of `LookupCompound` cannot fail when the panic
guard of the inner `Lookup` calls holds. -/
theorem lcLoop_isSome (S : GoSymSpell) (sortFn : List SuggestItem → List SuggestItem)
    (fops : FloatOps) (editDistanceMax : Int)
    (hg : editDistanceMax ≤ (S.maxDictionaryEditDistance : Int)) :
    ∀ (toks : List Str) (prevTok : Option Str) (lastCombi : Bool)
      (parts : List SuggestItem),
      (lcLoop S sortFn fops editDistanceMax toks prevTok lastCombi parts).isSome := by
  intro toks
  induction toks with
  | nil => intro prevTok lastCombi parts; simp [lcLoop]
  | cons tok rest ih =>
    intro prevTok lastCombi parts
    unfold lcLoop
    obtain ⟨sgs, hsgs⟩ := Option.isSome_iff_exists.1
      (goLookup_isSome S sortFn tok .top editDistanceMax false hg)
    rw [hsgs]
    simp only [Option.some_bind]
    split
    · exact ih _ _ _
    · split
      · exact ih _ _ _
      · split
        · obtain ⟨best, hbest⟩ := Option.isSome_iff_exists.1
            (lcSplit_isSome S sortFn fops editDistanceMax tok sgs hg
              (List.range' 1 (tok.length - 1)) _)
          rw [hbest]
          simp only [Option.some_bind]
          split
          · exact ih _ _ _
          · exact ih _ _ _
        · exact ih _ _ _

/-- C9: whenever `editDistanceMax ≤ maxDictionaryEditDistance` (so the
inner `Lookup` calls cannot panic), `LookupCompound` returns a list of
exactly one item, whose `distance` field is the distance from the input to
the composed sentence computed with the effectively unbounded maximum
`math.MaxInt32` — for every tokenizer and every instantiation of the
floating-point operations. -/
theorem claimC9 (S : GoSymSpell) (sortFn : List SuggestItem → List SuggestItem)
    (fops : FloatOps) (tokenize : Str → List Str) (input : Str) (editDistanceMax : Int)
    (hed : editDistanceMax ≤ (S.maxDictionaryEditDistance : Int)) :
    (goLookupCompound S sortFn fops tokenize input editDistanceMax).isSome ∧
    ∀ r, goLookupCompound S sortFn fops tokenize input editDistanceMax = some r →
      r.length = 1 ∧ ∀ x ∈ r, x.distance = goDistance input x.term maxInt32 := by
  obtain ⟨parts, hparts⟩ := Option.isSome_iff_exists.1
    (lcLoop_isSome S sortFn fops editDistanceMax hed (tokenize input) none false [])
  constructor
  · unfold goLookupCompound
    simp only []
    rw [hparts]
    rfl
  · intro r h
    unfold goLookupCompound at h
    simp only [] at h
    rw [hparts, Option.map_some'] at h
    rcases Option.some.injEq _ _ ▸ h with rfl
    constructor
    · rfl
    · intro x hx
      rcases List.mem_singleton.1 hx with rfl
      rfl

/-- Witness for `claimC9`: on the shared-prefix dictionary with the
whole-input tokenizer, `LookupCompound("pip", 1)` exists, and the
singleton/distance facts hold of its concrete value `[("pipe", 1, 0)]`. -/
theorem claimC9_witness :
    (goLookupCompound fixPip goSortSmall floatOpsModel (fun s => [s]) wPip 1).isSome ∧
    (([({ term := wPipe, distance := 1, count := 0 } : SuggestItem)]).length = 1 ∧
      ∀ x ∈ [({ term := wPipe, distance := 1, count := 0 } : SuggestItem)],
        x.distance = goDistance wPip x.term maxInt32) :=
  ⟨(claimC9 fixPip goSortSmall floatOpsModel (fun s => [s]) wPip 1 (by decide)).1,
   (claimC9 fixPip goSortSmall floatOpsModel (fun s => [s]) wPip 1 (by decide)).2
     [{ term := wPipe, distance := 1, count := 0 }] (by decide)⟩
